import Mathlib

/-!
Verification of the Trellis reactive/STM engine (peak.events.stm,
peak.events.trellis, peak.events.activity) against its specification.

The Python sources are shallowly embedded: controller state is an explicit
structure, dicts are insertion-ordered association lists, the undo log is a
list of first-order undo entries (each constructor corresponds to one of the
closures the source pushes), raised exceptions are explicit error values
threaded as `St × Option Err`, and `heapq` operations are translated
function-for-function.
-/

namespace Trellis

/-- Layer numbers: natural numbers plus the `Max` sentinel from
`peak.util.extremes` (`⊤`), which compares above every integer. -/
abbrev Layer := WithTop Nat

/-- `Max + 1 = Max`, `n + 1` otherwise (extremes arithmetic absorbs `Max`). -/
def layerSucc (L : Layer) : Layer := WithTop.map (· + 1) L

/-! ### `heapq` routines

Translations of Python's `heapq.heappush` / `heapq.heappop` (used by
`Controller.schedule`, `Controller._process` and `Time._updated`).  The
recursions are expressed with explicit structural fuel so that they reduce in
the kernel; the fuel supplied at the entry points always suffices. -/

section Heapq

variable {α : Type} [LinearOrder α]

/-- `heapq._siftdown(heap, 0, pos)` with `newitem = x`: bubble the hole at
`pos` up while the parent is larger, then store `x`.  `fuel ≥ pos` always
holds at the entry point, and the position shrinks on every step. -/
def siftUpAux (d x : α) : Nat → List α → Nat → List α
  | 0, l, pos => l.set pos x
  | fuel + 1, l, pos =>
    if pos = 0 then l.set 0 x
    else
      let pp := (pos - 1) / 2
      let parent := l.getD pp d
      if x < parent then siftUpAux d x fuel (l.set pos parent) pp
      else l.set pos x

/-- `heapq.heappush(heap, x)`: append then sift up from the last slot. -/
def heappush (d : α) (l : List α) (x : α) : List α :=
  siftUpAux d x l.length (l ++ [x]) l.length

/-- `heapq._siftup(heap, pos)` (as called by `heappop` with `pos = 0`):
move the smaller child up repeatedly, then sift the moved item back down.
`newitem = x` is the value conceptually occupying the hole. -/
def siftDownAux (d x : α) : Nat → List α → Nat → Nat → List α
  | 0, l, pos, _ => siftUpAux d x pos (l.set pos x) pos
  | fuel + 1, l, pos, startpos =>
    let endpos := l.length
    let childpos := 2 * pos + 1
    if childpos < endpos then
      let rightpos := childpos + 1
      let childpos :=
        if rightpos < endpos ∧ ¬ (l.getD childpos d < l.getD rightpos d)
        then rightpos else childpos
      siftDownAux d x fuel (l.set pos (l.getD childpos d)) childpos startpos
    else
      siftUpAux d x (pos - startpos) (l.set pos x) pos

/-- `heapq.heappop(heap)`: pop the last element; if the heap is still
non-empty, place it at the root and `_siftup`.  Returns `(popped?, heap')`. -/
def heappop (d : α) (l : List α) : Option α × List α :=
  match l.getLast? with
  | none => (none, [])
  | some lastelt =>
    let heap := l.dropLast
    match heap with
    | [] => (some lastelt, [])
    | root :: _ => (some root, siftDownAux d lastelt heap.length (heap.set 0 lastelt) 0 0)

/-- The binary min-heap property, exactly as `heapq` maintains it:
every non-root slot is `≥` its parent slot. -/
def IsHeap (d : α) (l : List α) : Prop :=
  ∀ i, i < l.length → 0 < i → l.getD ((i - 1) / 2) d ≤ l.getD i d

instance (d : α) (l : List α) : Decidable (IsHeap d l) :=
  Nat.decidableBallLT l.length _

/-- Loop invariant of `siftUpAux`: `pos` is the "hole" where `x` is destined;
all heap edges not involving the hole are intact; the hole's children
dominate both `x` and the hole's parent. -/
def SiftInv (d x : α) (l : List α) (pos : Nat) : Prop :=
  pos < l.length ∧
  (∀ i, i < l.length → 0 < i → i ≠ pos → (i - 1) / 2 ≠ pos →
    l.getD ((i - 1) / 2) d ≤ l.getD i d) ∧
  (∀ i, i < l.length → 0 < i → (i - 1) / 2 = pos →
    x ≤ l.getD i d ∧ (0 < pos → l.getD ((pos - 1) / 2) d ≤ l.getD i d))

end Heapq

/-!
### The STM controller and cells (`peak/events/stm.py`, `peak/events/trellis.py`)

Modeling conventions:

* Python dicts are insertion-ordered association lists; `popitem()` is
  modeled as taking the first (oldest) entry (CPython 2 leaves the order
  unspecified; no verified claim depends on this choice).
* Subjects and listeners are identified by natural numbers (`SID`, `LID`);
  the modeled worlds never use one object as both, so their `layer`
  attributes live in separate maps.
* Python values are object identities: `is` compares identities, `==`
  compares a fixed valuation `World.val` of identities, so distinct objects
  may be `==`-equal.
* Link weak references are strong here (no garbage collection happens inside
  a modeled scenario); `subject.manager` is always `None`, so `lock` only
  performs its activity assertion and `manage` never fires.
* `assert` failures and raised exceptions are explicit `Err` values threaded
  in `St × Option Err`; unbounded loops take explicit fuel (`Err.fuel` is
  never reached in the verified scenarios).
* The undo log holds one constructor per closure kind the source pushes;
  none of those closures appends to the log, and `runUndo` never touches it.
-/

namespace Stm

abbrev SID := Nat

abbrev LID := Nat

/-- A Python value: `none` is Python `None`, `some o` the object with id `o`. -/
abbrev PVal := Option Nat

/-- Python `==` under the identity valuation `val` (Python `is` is plain
equality of `PVal`, and `is` implies `==`). -/
def pvEq (val : Nat → Int) (a b : PVal) : Bool := a.map val == b.map val

/-- The `_set_by` slot of a cell: the `_sentinel` marker, or the
`ctrl.current_listener` recorded at the first write of the pulse
(`none` = an external, listenerless write). -/
inductive SetBy where
  | sentinel
  | setter (l : Option LID)
deriving DecidableEq, Repr

/-- Raised exceptions.  `fuel` is a modeling artifact (loop fuel ran out). -/
inductive Err where
  | assertionError
  | runtimeError
  | keyError
  | indexError
  | inputConflict (old new : PVal)
  | circularity (routes : List (Option LID × List LID))
  | fuel
deriving DecidableEq, Repr

/-- Undo-log entries: one constructor per closure kind pushed by the source. -/
inductive UndoE where
  | restoreStore (k : Nat) (v : Int)
  | restoreCellVal (c : SID) (v : PVal)
  | restoreCellSetBy (c : SID) (sb : SetBy)
  | popCommit
  | cancelL (l : LID)
  | rescheduleL (l : LID)
  | hasRunPop (l : LID)
  | restoreLastSave (v : Option Nat)
  | restoreLastListener (v : Option LID)
  | restoreLastNotified (v : Option (List LID))
  | mkLink (subj : SID) (l : LID)
  | unlink (subj : SID) (l : LID)
deriving DecidableEq, Repr

/-- Commit hooks: a cell's bound `_finish`, or an opaque user hook. -/
inductive CHook where
  | finish (c : SID)
  | gen (n : Nat)
deriving DecidableEq, Repr

/-- A rule body: the sequence of controller calls a listener's `run()` makes. -/
inductive ROp where
  | use (subj : SID)
  | change (subj : SID)
  | setval (c : SID) (v : PVal)
deriving DecidableEq, Repr

/-- Static configuration of a scenario world. -/
structure World where
  val : Nat → Int
  ruleOf : LID → List ROp
  dirtyOf : LID → Bool
  subjLayer : SID → Layer
  cellReset : SID → Option PVal

/-- Mutable controller + cell state (`Controller.__init__`, `_ReadValue`). -/
structure St where
  active : Bool
  inCleanup : Bool
  readonly : Bool
  current : Option LID
  reads : List SID
  writes : List SID
  hasRun : List (LID × LID)
  toRetry : List LID
  layers : List Layer
  queues : List (Layer × List LID)
  lisLayer : LID → Layer
  listenersOf : SID → List LID
  subjectsOf : LID → List SID
  cellVal : SID → PVal
  cellSetBy : SID → SetBy
  store : Nat → Int
  undo : List UndoE
  atCommit : List CHook
  lastSave : Option Nat
  lastListener : Option LID
  lastNotified : Option (List LID)

/-- Result of an operation: the new state plus an optionally raised error. -/
abbrev R := St × Option Err

def bindR (r : R) (f : St → R) : R :=
  match r with
  | (s, none) => f s
  | e => e

/-- Pointwise function update (Python attribute assignment). -/
def updF {β : Type} (f : Nat → β) (k : Nat) (v : β) : Nat → β :=
  fun x => if x = k then v else f x

/-- Dict lookup (first matching key). -/
def aGet {κ ν : Type} [DecidableEq κ] : List (κ × ν) → κ → Option ν
  | [], _ => none
  | (k, v) :: rest, key => if k = key then some v else aGet rest key

/-- Dict assignment: overwrite the existing key in place or append. -/
def aPut {κ ν : Type} [DecidableEq κ] : List (κ × ν) → κ → ν → List (κ × ν)
  | [], key, v => [(key, v)]
  | (k, w) :: rest, key, v =>
    if k = key then (key, v) :: rest else (k, w) :: aPut rest key v

/-- Dict key deletion. -/
def aDel {κ ν : Type} [DecidableEq κ] : List (κ × ν) → κ → List (κ × ν)
  | [], _ => []
  | (k, w) :: rest, key => if k = key then rest else (k, w) :: aDel rest key

/-- `Controller.used` (stm.py:458-464); `lock` (stm.py:452-456) is inlined
as its activity assertion, the modeled subjects having no manager. -/
def usedF (w : World) (subject : SID) (s : St) : R :=
  if ¬ s.active then (s, some .assertionError) else
  match s.current with
  | some cl =>
    if subject ∉ s.reads then
      let s1 := {s with reads := s.reads ++ [subject]}
      if w.subjLayer subject ≥ s1.lisLayer cl then
        ({s1 with lisLayer := updF s1.lisLayer cl (layerSucc (w.subjLayer subject))}, none)
      else (s1, none)
    else (s, none)
  | none => (s, none)

/-- `Controller.cancel` (stm.py:411-419).  `layers.remove(...)` +
`layers.sort()` is modeled by erasing the layer and sorting; under the
verified invariant the layer is present exactly when the queue key is. -/
def cancel (s : St) (listener : LID) : St :=
  match aGet s.queues (s.lisLayer listener) with
  | some q =>
    if listener ∈ q then
      let q' := q.erase listener
      if q' = [] then
        {s with queues := aDel s.queues (s.lisLayer listener),
                layers := List.insertionSort (· ≤ ·) (s.layers.erase (s.lisLayer listener))}
      else {s with queues := aPut s.queues (s.lisLayer listener) q'}
    else s
  | none => s

/-- `Controller.schedule`, step 1 (stm.py:390-391): a listener that already
ran this pulse enters `to_retry` under its enclosing top-level rule. -/
def schedRetry (s : St) (listener : LID) : St :=
  match aGet s.hasRun listener with
  | some top => if top ∈ s.toRetry then s else {s with toRetry := s.toRetry ++ [top]}
  | none => s

/-- `Controller.schedule`, step 2 (stm.py:393-398): if the listener is
queued at its old layer and the layer changed, cancel it first; otherwise,
inside an active block that is not a rollback re-schedule, log a
cancellation undo entry. -/
def schedDequeue (s : St) (listener : LID) (new old : Layer) (reschedule : Bool) : St :=
  if (match aGet s.queues old with
      | some q => decide (listener ∈ q)
      | none => false) then
    (if new ≠ old then cancel s listener else s)
  else if s.active ∧ ¬ reschedule then {s with undo := .cancelL listener :: s.undo}
  else s

/-- `Controller.schedule`, step 3 (stm.py:404-408): insert into
`queues[new]`, pushing `new` onto the layer heap if the key is fresh. -/
def schedInsert (s : St) (listener : LID) (new : Layer) : St :=
  match aGet s.queues new with
  | none => {s with queues := aPut s.queues new [listener],
                    layers := heappush 0 s.layers new}
  | some qq =>
    {s with queues := aPut s.queues new (if listener ∈ qq then qq else qq ++ [listener])}

/-- `Controller.schedule` (stm.py:370-408). -/
def schedule (s : St) (listener : LID) (sourceLayer : Option Layer)
    (reschedule : Bool) : R :=
  let old := s.lisLayer listener
  if s.readonly ∧ old ≠ ⊤ then (s, some .assertionError) else
  let new := match sourceLayer with
    | some sl => if sl ≥ old then layerSucc sl else old
    | none => old
  let s := schedRetry s listener
  let s := schedDequeue s listener new old reschedule
  let s := if new ≠ old then {s with lisLayer := updF s.lisLayer listener new} else s
  (schedInsert s listener new, none)

/-- `Controller.changed` (stm.py:466-475). -/
def changed (w : World) (subject : SID) (s : St) : R :=
  if ¬ s.active then (s, some .assertionError) else
  let r : R := match s.current with
    | some _ =>
      ({s with writes := if subject ∈ s.writes then s.writes else s.writes ++ [subject]},
       none)
    | none =>
      (s.listenersOf subject).foldl
        (fun r l => bindR r (fun s =>
          if w.dirtyOf l then schedule s l none false else (s, none)))
        (s, none)
  bindR r (fun s => if s.readonly then (s, some .runtimeError) else (s, none))

/-- `Value.set_value` (trellis.py:129-149), inside an already active atomic
block (the inactive case wraps itself in `ctrl.atomically`; scenarios use
`atomicallyE` for that). -/
def setValueIn (w : World) (c : SID) (v : PVal) (s : St) : R :=
  if ¬ s.active then (s, some .assertionError) else
  let s := if s.cellSetBy c = .sentinel then
      {s with undo := .popCommit :: .restoreCellSetBy c (s.cellSetBy c) :: s.undo,
              cellSetBy := updF s.cellSetBy c (.setter s.current),
              atCommit := s.atCommit ++ [.finish c]}
    else s
  if v = s.cellVal c then (s, none)
  else if ¬ (pvEq w.val v (s.cellVal c)) then
    if s.cellSetBy c ≠ .setter s.current then
      (s, some (.inputConflict (s.cellVal c) v))
    else
      bindR (changed w c s) (fun s =>
        ({s with undo := .restoreCellVal c (s.cellVal c) :: s.undo,
                 cellVal := updF s.cellVal c v}, none))
  else
    ({s with undo := .restoreCellVal c (s.cellVal c) :: s.undo,
             cellVal := updF s.cellVal c v}, none)

/-- `_ReadValue._finish` (trellis.py:102-107): clear `_set_by`; a discrete
cell whose value differs from its reset value reverts and fires `changed`. -/
def runFinish (w : World) (c : SID) (s : St) : R :=
  let s := if s.cellSetBy c ≠ .sentinel then
      {s with undo := .restoreCellSetBy c (s.cellSetBy c) :: s.undo,
              cellSetBy := updF s.cellSetBy c .sentinel}
    else s
  match w.cellReset c with
  | some r =>
    if ¬ pvEq w.val (s.cellVal c) r then
      changed w c
        {s with undo := .restoreCellVal c (s.cellVal c) :: s.undo,
                cellVal := updF s.cellVal c r}
    else (s, none)
  | none => (s, none)

/-- `_ReadValue.get_value` (trellis.py:94-98): inside an atomic block the
read registers a dependency via `used`; the returned value is `_value`. -/
def getValueF (w : World) (c : SID) (s : St) : R × PVal :=
  if s.active then
    let r := usedF w c s
    (r, r.1.cellVal c)
  else ((s, none), s.cellVal c)

def runOp (w : World) (op : ROp) (s : St) : R :=
  match op with
  | .use subj => (getValueF w subj s).1
  | .change subj => changed w subj s
  | .setval c v => setValueIn w c v s

def runScript (w : World) : List ROp → St → R
  | [], s => (s, none)
  | op :: rest, s => bindR (runOp w op s) (runScript w rest)

/-- One undo entry.  None of the source's logged closures appends to the
undo log, and accordingly `runUndo` never touches `St.undo`. -/
def runUndo (e : UndoE) (s : St) : R :=
  match e with
  | .restoreStore k v => ({s with store := updF s.store k v}, none)
  | .restoreCellVal c v => ({s with cellVal := updF s.cellVal c v}, none)
  | .restoreCellSetBy c sb => ({s with cellSetBy := updF s.cellSetBy c sb}, none)
  | .popCommit => ({s with atCommit := s.atCommit.dropLast}, none)
  | .cancelL l => (cancel s l, none)
  | .rescheduleL l => schedule s l none true
  | .hasRunPop l => ({s with hasRun := aDel s.hasRun l}, none)
  | .restoreLastSave v => ({s with lastSave := v}, none)
  | .restoreLastListener v => ({s with lastListener := v}, none)
  | .restoreLastNotified v => ({s with lastNotified := v}, none)
  | .mkLink subj l =>
    ({s with listenersOf := updF s.listenersOf subj (l :: s.listenersOf subj),
             subjectsOf := updF s.subjectsOf l (subj :: s.subjectsOf l)}, none)
  | .unlink subj l =>
    ({s with listenersOf := updF s.listenersOf subj ((s.listenersOf subj).erase l),
             subjectsOf := updF s.subjectsOf l ((s.subjectsOf l).erase subj)}, none)

/-- `STMHistory.savepoint` (stm.py:160-162): the undo log length. -/
def savepoint (s : St) : Nat := s.undo.length

/-- `STMHistory.rollback_to` (stm.py:165-171): pop and run entries while
`len(undo) > sp`.  `sp` may be Python `None` (from `_retry` rolling past the
first listener), which in Python 2 compares below every int, so the loop
then pops everything and the final pop on an empty list is an `IndexError`. -/
def rollbackAux (sp : Option Nat) : List UndoE → St → R
  | [], s =>
    match sp with
    | some _ => ({s with undo := []}, none)
    | none => ({s with undo := []}, some .indexError)
  | e :: rest, s =>
    let cond : Bool := match sp with | some n => decide (rest.length + 1 > n) | none => true
    if cond then bindR (runUndo e {s with undo := rest}) (rollbackAux sp rest)
    else ({s with undo := e :: rest}, none)

def rollbackTo (sp : Option Nat) (s : St) : R :=
  rollbackAux sp s.undo s

/-- `STMHistory.setattr` (stm.py:206-209) on a generic attribute slot:
log the previous value as an undo entry, then write (`on_undo` asserts the
active block). -/
def setattrStore (k : Nat) (v : Int) (s : St) : R :=
  if ¬ s.active then (s, some .assertionError) else
  ({s with undo := .restoreStore k (s.store k) :: s.undo, store := updF s.store k v}, none)

/-- `STMHistory.on_commit` (stm.py:211-215) with an opaque user hook:
append the hook and schedule its own removal as an undo entry. -/
def onCommitG (n : Nat) (s : St) : R :=
  if ¬ s.active then (s, some .assertionError) else
  ({s with atCommit := s.atCommit ++ [.gen n], undo := .popCommit :: s.undo}, none)

/-- Inner loop of `Controller._process_writes` (stm.py:340-346): notify the
dependents of one written subject. -/
def pwNotify (w : World) (listener : LID) (layer : Layer) (deps : List LID)
    (s : St) : R :=
  deps.foldl
    (fun r dep => bindR r (fun s =>
      if aGet s.hasRun dep ≠ some listener then
        if w.dirtyOf dep then
          bindR (schedule s dep (some layer) false) (fun s =>
            ({s with lastNotified :=
                match s.lastNotified with
                | some notified =>
                  some (if dep ∈ notified then notified else notified ++ [dep])
                | none => none}, none))
        else (s, none)
      else (s, none)))
    (s, none)

def pwLoop (w : World) (listener : LID) (layer : Layer) : Nat → St → R
  | 0, s => (s, if s.writes = [] then none else some .fuel)
  | fuel + 1, s =>
    match s.writes with
    | [] => (s, none)
    | subj :: rest =>
      bindR (pwNotify w listener layer (s.listenersOf subj) {s with writes := rest})
        (pwLoop w listener layer fuel)

/-- `Controller._process_writes` (stm.py:329-346): snapshot `last_notified`
into the undo log, drain `writes`, scheduling each dirty dependent that did
not run under this listener at a layer above `listener.layer`. -/
def processWrites (w : World) (listener : LID) (s : St) : R :=
  let s := {s with undo := .restoreLastNotified s.lastNotified :: s.undo,
                   lastNotified := some []}
  pwLoop w listener (s.lisLayer listener) s.writes.length s

/-- `Controller._process_reads` phase 1 (stm.py:355-363): walk the
listener's existing links; keep those still read, unlink the rest
(logging a re-link undo entry). -/
def prPhase1 (listener : LID) (links : List SID) (s : St) : St :=
  links.foldl
    (fun s t =>
      if t ∈ s.reads then {s with reads := s.reads.erase t}
      else
        {s with undo := .mkLink t listener :: s.undo,
                listenersOf := updF s.listenersOf t ((s.listenersOf t).erase listener),
                subjectsOf := updF s.subjectsOf listener ((s.subjectsOf listener).erase t)})
    s

/-- `Controller._process_reads` phase 2 (stm.py:365-368): link the newly
read subjects, logging an unlink undo entry for each. -/
def prPhase2 (listener : LID) : Nat → St → St
  | 0, s => s
  | fuel + 1, s =>
    match s.reads with
    | [] => s
    | t :: rest =>
      prPhase2 listener fuel
        {s with reads := rest,
                undo := .unlink t listener :: s.undo,
                listenersOf := updF s.listenersOf t (listener :: s.listenersOf t),
                subjectsOf := updF s.subjectsOf listener (t :: s.subjectsOf listener)}

def processReads (listener : LID) (s : St) : R :=
  let s1 := prPhase1 listener (s.subjectsOf listener) s
  (prPhase2 listener s1.reads.length s1, none)

/-- `Controller.run` (stm.py:288-323). -/
def runL (w : World) (listener : LID) (s : St) : R :=
  let old := s.current
  let s := {s with current := some listener}
  let s := if s.lisLayer listener = ⊤ then {s with readonly := true} else s
  let fin := fun (s : St) => {s with current := old, readonly := false}
  if (aGet s.hasRun listener).isSome then (fin s, some .assertionError) else
  match old with
  | some o =>
    match aGet s.hasRun o with
    | none => (fin s, some .keyError)
    | some top =>
      let s := {s with hasRun := aPut s.hasRun listener top,
                       undo := .hasRunPop listener :: s.undo}
      let oldReads := s.reads
      let s := {s with reads := []}
      let r := bindR (runScript w (w.ruleOf listener) s) (processReads listener)
      (fin {r.1 with reads := oldReads}, r.2)
  | none =>
    let sp := s.undo.length
    let s := {s with undo := .restoreLastSave s.lastSave :: s.undo, lastSave := some sp}
    let s := {s with undo := .restoreLastListener s.lastListener :: s.undo,
                     lastListener := some listener}
    let s := {s with hasRun := aPut s.hasRun listener listener,
                     undo := .hasRunPop listener :: s.undo}
    match bindR (bindR (runScript w (w.ruleOf listener) s) (processWrites w listener))
        (processReads listener) with
    | (s, none) => (fin s, none)
    | (s, some e) => (fin {s with reads := [], writes := []}, some e)

/-- The loop of `Controller._retry` (stm.py:271-281): step the undo log
back through the completed listeners, collecting re-trigger routes. -/
def retryLoop (w : World) : Nat → List LID → List (Option LID) →
    List (Option LID × List LID) → St →
    (List (Option LID × List LID) × St × Option Err)
  | 0, todo, _, routes, s => (routes, s, if todo = [] then none else some .fuel)
  | fuel + 1, todo, destinations, routes, s =>
    if todo = [] then (routes, s, none)
    else
      let this := s.lastListener
      let rd := match s.lastNotified with
        | some notified =>
          let via := notified.filter (fun l => decide (some l ∈ destinations))
          if notified ≠ [] ∧ via ≠ [] then
            (aPut routes this via,
             if this ∈ destinations then destinations else destinations ++ [this])
          else (routes, destinations)
        | none => (routes, destinations)
      match rollbackTo s.lastSave s with
      | (s, none) =>
        let todo := match this with
          | some t => if t ∈ todo then todo.erase t else todo
          | none => todo
        retryLoop w fuel todo rd.2 rd.1 s
      | (s, some e) => (rd.1, s, some e)

/-- `Controller._retry` (stm.py:270-286): roll back through the listeners
of this pulse; if a member of `to_retry` appears among the route keys, the
re-trigger closed a cycle: raise `CircularityError(routes)`.  `to_retry` is
cleared on every exit path (the `finally`). -/
def retryF (w : World) (s : St) : R :=
  let todo := s.toRetry
  let destinations := s.toRetry.map some
  let fuel := s.undo.length + todo.length + 1
  match retryLoop w fuel todo destinations [] s with
  | (routes, s, none) =>
    if s.toRetry.any (fun item => (aGet routes (some item)).isSome)
    then ({s with toRetry := []}, some (.circularity routes))
    else ({s with toRetry := []}, none)
  | (_, s, some e) => ({s with toRetry := []}, some e)

/-- Commit hooks, in registration order (`for (f,a) in self.at_commit`,
stm.py:181).  The modeled hooks never append further hooks, so iterating
this snapshot is exact; the loop stops at the first raised error. -/
def runHooks (w : World) : List CHook → St → R
  | [], s => (s, none)
  | h :: rest, s =>
    bindR (match h with
           | .finish c => runFinish w c s
           | .gen _ => (s, none))
      (runHooks w rest)

/-- `STMHistory.cleanup` (stm.py:173-204): assert no re-entry, run commit
hooks when committing, roll back to savepoint 0 when an error is pending
(capturing a rollback error as the new pending error), clear the hook list
and the undo log, and report the pending error for re-raising.  The modeled
worlds register no context managers. -/
def cleanupBase (w : World) (errIn : Option Err) (s : St) : R :=
  if ¬ s.active then (s, some .assertionError)
  else if s.inCleanup then (s, some .assertionError)
  else
    let s := {s with inCleanup := true}
    match (match errIn with
           | none => runHooks w s.atCommit s
           | some e => (s, some e) : R) with
    | (s, typ) =>
      match (match typ with
             | some _ =>
               (match rollbackTo (some 0) s with
                | (s, none) => (s, typ)
                | (s, some e2) => (s, some e2))
             | none => (s, none) : R) with
      | (s, typ) =>
        ({s with atCommit := [], undo := [], inCleanup := false}, typ)

/-- `Controller.cleanup` (stm.py:262-268): clear `has_run`, run the base
cleanup, then always clear the pulse-tracking attributes. -/
def cleanupC (w : World) (errIn : Option Err) (s : St) : R :=
  match cleanupBase w errIn {s with hasRun := []} with
  | (s, typ) =>
    ({s with current := none, lastListener := none,
             lastNotified := none, lastSave := none}, typ)

/-- The inner `while layers:` loop of `Controller._process` (stm.py:433-443). -/
def drainLayers (w : World) : Nat → St → R
  | 0, s => (s, if s.layers = [] then none else some .fuel)
  | fuel + 1, s =>
    if s.layers = [] then (s, none)
    else
      bindR (if s.toRetry ≠ [] then retryF w s else (s, none)) (fun s =>
        match s.layers with
        | [] => (s, some .indexError)
        | L :: _ =>
          match aGet s.queues L with
          | none => (s, some .keyError)
          | some q =>
            match q with
            | listener :: qrest =>
              bindR (runL w listener
                  {s with queues := aPut s.queues L qrest,
                          undo := .rescheduleL listener :: s.undo})
                (drainLayers w fuel)
            | [] =>
              drainLayers w fuel
                {s with queues := aDel s.queues L,
                        layers := (heappop 0 s.layers).2})

/-- The outer `while layers or self.at_commit:` loop of `Controller._process`
(stm.py:432-444). -/
def processLoop (w : World) : Nat → St → R
  | 0, s => (s, some .fuel)
  | fuel + 1, s =>
    if s.layers = [] ∧ s.atCommit = [] then (s, none)
    else
      bindR (drainLayers w (fuel + 1) s) (fun s =>
        bindR (cleanupC w none s) (processLoop w fuel))

/-- `Controller._process` (stm.py:427-449): run the user function, drain the
queue to quiescence, and on any error clear `layers`/`queues` and re-raise. -/
def processF (w : World) (fuel : Nat) (f : St → R) (s : St) : R :=
  match f s with
  | (s, some e) => ({s with layers := [], queues := []}, some e)
  | (s, none) =>
    match processLoop w fuel s with
    | (s, none) => (s, none)
    | (s, some e) => ({s with layers := [], queues := []}, some e)

/-- `Controller.atomically` (stm.py:421-425) over `STMHistory.atomically`
(stm.py:134-147): a re-entrant call (the block is already active — which is
also the case throughout `cleanup`) just runs `func`; otherwise activate,
process, clean up — calling `cleanup` again with the error if the first
cleanup raised — and finally deactivate. -/
def atomicallyE (w : World) (fuel : Nat) (f : St → R) (s : St) : R :=
  if s.active then f s
  else
    let s := {s with active := true}
    match processF w fuel f s with
    | (s, none) =>
      match cleanupC w none s with
      | (s, none) => ({s with active := false}, none)
      | (s, some e) =>
        match cleanupC w (some e) s with
        | (s2, typ2) => ({s2 with active := false}, some (typ2.getD e))
    | (s, some e) =>
      match cleanupC w (some e) s with
      | (s2, typ2) => ({s2 with active := false}, some (typ2.getD e))

/-- The error path of an atomic block as it unfolds from an exception raised
inside a top-level rule run: `Controller.run` clears the read/write sets and
restores `current_listener` (stm.py:317-323), `Controller._process` clears
`layers`/`queues` (stm.py:446-449), and `STMHistory.atomically` invokes
`cleanup` with the error (stm.py:144-147), which rolls back to savepoint 0
and re-raises. -/
def abortBlock (w : World) (e : Err) (s : St) : R :=
  let s := {s with reads := [], writes := [], current := none, readonly := false,
                   layers := [], queues := []}
  match cleanupC w (some e) s with
  | (s2, typ2) => ({s2 with active := false}, some (typ2.getD e))

/-! ### Scenario fixtures -/

/-- A world with no rules, every listener dirty, all subjects at layer 0,
no discrete cells, and object ids valued by themselves. -/
def baseW : World :=
  { val := fun n => (n : Int), ruleOf := fun _ => [], dirtyOf := fun _ => true,
    subjLayer := fun _ => 0, cellReset := fun _ => none }

/-- The quiescent controller state between atomic blocks. -/
def baseSt : St :=
  { active := false, inCleanup := false, readonly := false, current := none,
    reads := [], writes := [], hasRun := [], toRetry := [], layers := [],
    queues := [], lisLayer := fun _ => 0, listenersOf := fun _ => [],
    subjectsOf := fun _ => [], cellVal := fun _ => none,
    cellSetBy := fun _ => .sentinel, store := fun _ => 0, undo := [],
    atCommit := [], lastSave := none, lastListener := none, lastNotified := none }

/-- Cycle scenario: subjects `a = 0`, `b = 1`; rule `t1 = 10` reads `a` and
writes `b`; rule `t2 = 11` reads `b` and writes `a`; the dependency links
are in place from previous runs. -/
def cycleWorld : World :=
  { baseW with ruleOf := fun l =>
      if l = 10 then [.use 0, .change 1]
      else if l = 11 then [.use 1, .change 0] else [] }

def cycleStart : St :=
  { baseSt with
      listenersOf := fun s => if s = 0 then [10] else if s = 1 then [11] else [],
      subjectsOf := fun l => if l = 10 then [0] else if l = 11 then [1] else [] }

/-- Acyclic re-trigger scenario: `t0 = 10` reads `a = 0`; `t1 = 11` writes
`a` without reading it; both are triggered by subject `b = 1`.  After `t0`
runs, `t1`'s write re-triggers `t0`, which enters `to_retry` without any
cycle existing. -/
def retriggerWorld : World :=
  { baseW with ruleOf := fun l =>
      if l = 10 then [.use 0]
      else if l = 11 then [.change 0] else [] }

def retriggerStart : St :=
  { baseSt with
      listenersOf := fun s => if s = 0 then [10] else if s = 1 then [10, 11] else [],
      subjectsOf := fun l => if l = 10 then [0, 1] else if l = 11 then [1] else [] }

/-! ### C7: `atomically` during cleanup -/

/-- A stand-in for a user function handed to `atomically` from inside a commit
hook: it records that it ran by writing attribute slot 0. -/
def cleanupHookCall : St → R := fun s => ({s with store := updF s.store 0 5}, none)

/-! ### C5: `used` -/

/-- The controller maintains, at every point where `used` can be invoked,
that every already-recorded read lies strictly below the current listener's
layer (each recording either found this or raised the listener's layer). -/
def ReadsInv (w : World) (s : St) : Prop :=
  ∀ cl, s.current = some cl → ∀ x ∈ s.reads, w.subjLayer x < s.lisLayer cl

/-! ### Preservation lemmas for the scheduler -/

/-- `a` agrees with `b` on every component the scheduler never touches. -/
def quiet (a b : St) : Prop :=
  a.cellVal = b.cellVal ∧ a.cellSetBy = b.cellSetBy ∧ a.atCommit = b.atCommit
  ∧ a.active = b.active ∧ a.readonly = b.readonly ∧ a.inCleanup = b.inCleanup
  ∧ a.current = b.current ∧ a.writes = b.writes ∧ a.store = b.store
  ∧ a.reads = b.reads ∧ a.hasRun = b.hasRun
  ∧ a.listenersOf = b.listenersOf ∧ a.subjectsOf = b.subjectsOf

/-- The non-cell components `changed` leaves alone. -/
def cellsQuiet (a b : St) : Prop :=
  a.cellVal = b.cellVal ∧ a.cellSetBy = b.cellSetBy ∧ a.atCommit = b.atCommit
  ∧ a.active = b.active ∧ a.readonly = b.readonly ∧ a.inCleanup = b.inCleanup
  ∧ a.current = b.current

/-- Pulse-start state for the conflict scenario: an atomic block is active
and listener 1 is running. -/
def conflictStart : St := {baseSt with active := true, current := some 1}

/-- Scenario for the witness: a discrete cell 0 resting at its reset value
`None` (a fresh `Value(None, discrete=True)`), set to object 5 by an
external writer inside an atomic block. -/
def discreteW : World := {baseW with cellReset := fun _ => some none}

/-- Invariant (I1)/(c) of the spec: every listener stored under layer key `L`
has `layer == L`; queue members and queue keys are duplicate-free (they are
Python dicts); `layers` holds exactly the keys of `queues` and satisfies the
binary-heap property. -/
def SchedInv (s : St) : Prop :=
  (∀ p ∈ s.queues, ∀ l ∈ p.2, s.lisLayer l = p.1)
  ∧ (∀ p ∈ s.queues, p.2.Nodup)
  ∧ (s.queues.map Prod.fst).Nodup
  ∧ s.layers.Perm (s.queues.map Prod.fst)
  ∧ IsHeap 0 s.layers

/-- Witness scenario for the scheduler invariant: listener `7` sits queued at
layer `2`, and a source at layer `2` forces its elevation to layer `3`. -/
def schedW6 : St :=
  {baseSt with
    active := true,
    queues := [((2 : Layer), [7])],
    layers := [(2 : Layer)],
    lisLayer := fun l => if l = 7 then (2 : Layer) else ⊤}

instance (s : St) : Decidable (SchedInv s) := by
  unfold SchedInv
  infer_instance

/-! ### C2: savepoint / rollback -/

/-- The attribute- and hook-level mutations of the claim (each is logged
through `on_undo`). -/
inductive AOp where
  | setA (k : Nat) (v : Int)
  | onC (n : Nat)

def applyAOp : AOp → St → R
  | .setA k v, s => setattrStore k v s
  | .onC n, s => onCommitG n s

def applyAOps : List AOp → St → R
  | [], s => (s, none)
  | op :: rest, s => bindR (applyAOp op s) (applyAOps rest)

/-- A quiescent-but-active state for the C2 witness. -/
def c2St : St := {baseSt with active := true}

end Stm

/-!
### `Time` (`peak/events/activity.py`)

The scheduling side of the `Time` service: `_schedule` is a `heapq` heap of
instants seeded with the `[Max]` sentinel, `_events` maps instants to their
discrete event `Value` cells (modeled by the cell's boolean value; the
`WeakValueDictionary` holds them strongly here), `_now`/`_tick` are the
current time, and `curListener` models `trellis.ctrl.current_listener is not
None`.  The `ctrl.changed(...)` notification `reached` sends on the
`_schedule` cell concerns the controller, not the `Time` state, and is not
modeled here.
-/

namespace Activity

open Stm (aGet aPut aDel)

structure TimeSt where
  now : WithTop Nat
  tick : WithTop Nat
  sched : List (WithTop Nat)
  events : List (WithTop Nat × Bool)
  curListener : Bool
deriving DecidableEq

/-- `Time.reached` (activity.py:351-362). -/
def reached (when : WithTop Nat) (s : TimeSt) : Bool × TimeSt :=
  match aGet s.events when with
  | some v => (v, s)
  | none =>
    if s.now ≥ when then (true, s)
    else if s.curListener then
      let s1 : TimeSt := {s with sched := heappush 0 s.sched when,
                                 events := aPut s.events when false}
      ((aGet s1.events when).getD false, s1)
    else (false, s)

/-- The `while self._tick >= self._schedule[0]` loop of `Time._updated`
(activity.py:343-349), with explicit fuel; returns the final state and the
instants whose event cells were set to `True`. -/
def updatedLoop : Nat → TimeSt → List (WithTop Nat) → TimeSt × List (WithTop Nat)
  | 0, s, acc => (s, acc)
  | fuel + 1, s, acc =>
    if s.tick ≥ s.sched.getD 0 ⊤ then
      match heappop 0 s.sched with
      | (some key, sq) =>
        if (aGet s.events key).isSome then
          updatedLoop fuel {s with sched := sq, events := aDel s.events key}
            (acc ++ [key])
        else updatedLoop fuel {s with sched := sq} acc
      | (none, sq) => ({s with sched := sq}, acc)
    else (s, acc)

/-- `reached` outside any rule: `current_listener` is `None`. -/
def c9NoL : TimeSt :=
  {now := 0, tick := 0, sched := [⊤], events := [], curListener := false}

/-- `reached` inside a rule, before the instant. -/
def c9Reg : TimeSt :=
  {now := 2, tick := 2, sched := [⊤], events := [], curListener := true}

/-- `reached` after the instant has passed, no event cell registered. -/
def c9Past : TimeSt :=
  {now := 7, tick := 7, sched := [⊤], events := [], curListener := true}

/-- `reached` with an already-registered event cell currently `True`. -/
def c9Pre : TimeSt :=
  {now := 5, tick := 5, sched := [⊤], events := [((5 : WithTop Nat), true)],
   curListener := true}

/-- The pulse after time advanced to a scheduled instant. -/
def c9Fire : TimeSt :=
  {now := 5, tick := 5, sched := [(5 : WithTop Nat), ⊤],
   events := [((5 : WithTop Nat), false)], curListener := true}

end Activity

/-!
### `Cell.__new__` dispatch (`peak/events/trellis.py` 457-468)
-/

namespace TrellisCell

/-- The concrete class `Cell.__new__` returns an instance of. -/
inductive CellKind where
  | effector
  | sensor
  | readOnlyCell
  | value
  | cell
deriving DecidableEq

/-- The `rule` argument: omitted/`None`, an ordinary callable, or an
`AbstractConnector` instance. -/
inductive RuleArg where
  | none
  | plain
  | connector
deriving DecidableEq

/-- `Cell.__new__(cls, rule, value, discrete, writer)` (trellis.py:457-468):
`valueGiven` is `value is not _sentinel`, `writerGiven` is
`writer is not NOT_GIVEN`, `clsIsCell` is `cls is Cell`; the fall-through
`ReadOnlyCell.__new__(cls, ...)` builds an instance of `cls` itself
(`CellKind.cell` when `cls` is `Cell`).  `discrete` does not affect the
dispatch. -/
def cellNew (rule : RuleArg) (valueGiven : Bool) (writerGiven : Bool)
    (clsIsCell : Bool) : CellKind :=
  if writerGiven then .effector
  else if clsIsCell ∧ rule = .connector then .sensor
  else if clsIsCell ∧ ¬ valueGiven ∧ rule ≠ .none then .readOnlyCell
  else if clsIsCell ∧ rule = .none then .value
  else .cell

/-- Which classes define or inherit `set_value`: `Value` (trellis.py:129),
`Cell` (485) and `Effector` (550) do; `ReadOnlyCell` (165) and `Sensor`
(332, 363, built on `ReadOnlyCell`) do not. -/
def hasSetValue : CellKind → Bool
  | .effector => true
  | .sensor => false
  | .readOnlyCell => false
  | .value => true
  | .cell => true

end TrellisCell

theorem le_layerSucc (L : Layer) : L ≤ layerSucc L := by
  cases L using WithTop.recTopCoe with
  | top => simp [layerSucc]
  | coe n =>
    simp only [layerSucc, WithTop.map_coe]
    exact WithTop.coe_le_coe.mpr (Nat.le_succ n)

theorem lt_layerSucc {L : Layer} (h : L ≠ ⊤) : L < layerSucc L := by
  cases L using WithTop.recTopCoe with
  | top => exact absurd rfl h
  | coe n =>
    simp only [layerSucc, WithTop.map_coe]
    exact WithTop.coe_lt_coe.mpr (Nat.lt_succ_self n)

/-! ### List helpers (`getD`/`set` interaction, swap permutations)

These support the verification of the translated `heapq` routines below. -/

section ListHelpers

variable {α : Type}

theorem getD_set_eq : ∀ (l : List α) (i : Nat) (a d : α), i < l.length →
    (l.set i a).getD i d = a
  | [], i, _, _, h => absurd h (by simp)
  | _ :: _, 0, _, _, _ => rfl
  | _ :: l, i + 1, a, d, h => getD_set_eq l i a d (Nat.lt_of_succ_lt_succ h)

theorem getD_set_ne : ∀ (l : List α) (i j : Nat) (a d : α), i ≠ j →
    (l.set i a).getD j d = l.getD j d
  | [], _, _, _, _, _ => by simp
  | _ :: _, 0, 0, _, _, h => absurd rfl h
  | _ :: _, 0, _ + 1, _, _, _ => rfl
  | _ :: _, _ + 1, 0, _, _, _ => rfl
  | _ :: l, i + 1, j + 1, a, d, h =>
    getD_set_ne l i j a d (fun hc => h (by omega))

theorem getD_append_lt : ∀ (l l' : List α) (i : Nat) (d : α), i < l.length →
    (l ++ l').getD i d = l.getD i d
  | [], _, i, _, h => absurd h (by simp)
  | _ :: _, _, 0, _, _ => rfl
  | _ :: l, l', i + 1, d, h => getD_append_lt l l' i d (Nat.lt_of_succ_lt_succ h)

theorem getD_eq_get : ∀ (l : List α) (i : Nat) (d : α) (h : i < l.length),
    l.getD i d = l.get ⟨i, h⟩
  | [], i, _, h => absurd h (by simp)
  | _ :: _, 0, _, _ => rfl
  | _ :: l, i + 1, d, h => getD_eq_get l i d (Nat.lt_of_succ_lt_succ h)

theorem set_append_len : ∀ (l : List α) (x a : α), (l ++ [x]).set l.length a = l ++ [a]
  | [], _, _ => rfl
  | b :: l, x, a => by
    simp [set_append_len l x a]

/-- `(t.getD k d) :: t.set k x` is a permutation of `x :: t` (for `k` in range). -/
theorem cons_getD_set_perm : ∀ (t : List α) (k : Nat) (x d : α), k < t.length →
    ((t.getD k d) :: t.set k x).Perm (x :: t)
  | [], k, _, _, h => absurd h (by simp)
  | c :: t, 0, x, d, _ => List.Perm.swap x c t
  | c :: t, k + 1, x, d, h => by
    have ih := cons_getD_set_perm t k x d (Nat.lt_of_succ_lt_succ h)
    show ((t.getD k d) :: c :: t.set k x).Perm (x :: c :: t)
    exact ((List.Perm.swap _ _ _).trans ((ih.cons c))).trans (List.Perm.swap _ _ _)

/-- `x :: t.set k c` is a permutation of `c :: t.set k x`. -/
theorem cons_set_swap_perm : ∀ (t : List α) (k : Nat) (x c : α), k < t.length →
    (x :: t.set k c).Perm (c :: t.set k x)
  | [], k, _, _, h => absurd h (by simp)
  | _ :: t, 0, x, c, _ => List.Perm.swap c x t
  | b :: t, k + 1, x, c, h => by
    have ih := cons_set_swap_perm t k x c (Nat.lt_of_succ_lt_succ h)
    show (x :: b :: t.set k c).Perm (c :: b :: t.set k x)
    exact ((List.Perm.swap _ _ _).trans (ih.cons b)).trans (List.Perm.swap _ _ _)

/-- Moving a copy of `l[j]` to slot `i` and then writing `x` at `j` is, up to
permutation, the same as writing `x` at `i` directly. -/
theorem set_set_perm (d : α) : ∀ (l : List α) (i j : Nat) (x : α), i < l.length →
    j < l.length → i ≠ j → ((l.set i (l.getD j d)).set j x).Perm (l.set i x)
  | [], _, _, _, h, _, _ => absurd h (by simp)
  | c :: t, 0, j + 1, x, _, hj, _ => by
    have h1 : ((c :: t).set 0 ((c :: t).getD (j + 1) d)).set (j + 1) x
        = (t.getD j d) :: t.set j x := rfl
    rw [h1]
    exact cons_getD_set_perm t j x d (Nat.lt_of_succ_lt_succ hj)
  | c :: t, i + 1, 0, x, hi, _, _ => by
    have h1 : ((c :: t).set (i + 1) ((c :: t).getD 0 d)).set 0 x
        = x :: t.set i c := rfl
    rw [h1]
    exact cons_set_swap_perm t i x c (Nat.lt_of_succ_lt_succ hi)
  | c :: t, i + 1, j + 1, x, hi, hj, hij => by
    have ih := set_set_perm d t i j x (Nat.lt_of_succ_lt_succ hi)
      (Nat.lt_of_succ_lt_succ hj) (fun hc => hij (by omega))
    exact ih.cons c

end ListHelpers

section HeapqLemmas

variable {α : Type} [LinearOrder α]

theorem isHeap_set_of_inv {d x : α} {l : List α} {pos : Nat}
    (inv : SiftInv d x l pos)
    (hpar : 0 < pos → l.getD ((pos - 1) / 2) d ≤ x) :
    IsHeap d (l.set pos x) := by
  obtain ⟨hlen, h2, h3⟩ := inv
  intro i hi hi0
  rw [List.length_set] at hi
  by_cases hip : i = pos
  · subst hip
    have hpp : (i - 1) / 2 ≠ i := by omega
    rw [getD_set_ne _ _ _ _ _ (fun h => hpp h.symm), getD_set_eq _ _ _ _ hlen]
    exact hpar hi0
  · rw [getD_set_ne _ _ _ _ _ (fun h => hip h.symm)]
    by_cases hpp : (i - 1) / 2 = pos
    · rw [hpp, getD_set_eq _ _ _ _ hlen]
      exact (h3 i hi hi0 hpp).1
    · rw [getD_set_ne _ _ _ _ _ (fun h => hpp h.symm)]
      exact h2 i hi hi0 hip hpp

theorem siftUpAux_isHeap (d x : α) :
    ∀ (fuel : Nat) (l : List α) (pos : Nat), pos ≤ fuel →
      SiftInv d x l pos → IsHeap d (siftUpAux d x fuel l pos)
  | 0, l, pos, hf, inv => by
    have hp0 : pos = 0 := Nat.le_zero.mp hf
    subst hp0
    exact isHeap_set_of_inv inv (fun h => absurd h (by omega))
  | fuel + 1, l, pos, hf, inv => by
    rw [siftUpAux]
    by_cases hp0 : pos = 0
    · subst hp0
      simp only [if_pos rfl]
      exact isHeap_set_of_inv inv (fun h => absurd h (by omega))
    · simp only [if_neg hp0]
      obtain ⟨hlen, h2, h3⟩ := inv
      have hpos0 : 0 < pos := Nat.pos_of_ne_zero hp0
      have hpplt : (pos - 1) / 2 < pos := by omega
      by_cases hlt : x < l.getD ((pos - 1) / 2) d
      · simp only [if_pos hlt]
        apply siftUpAux_isHeap d x fuel _ _ (by omega)
        -- establish the invariant for the parent position
        refine ⟨by rw [List.length_set]; omega, ?_, ?_⟩
        · intro i hi hi0 hipp hippp
          rw [List.length_set] at hi
          have hipos : i ≠ pos := by
            intro h; subst h; exact hippp rfl
          rw [getD_set_ne _ _ _ _ _ (fun h => hipos h.symm)]
          by_cases hpar : (i - 1) / 2 = pos
          · rw [hpar, getD_set_eq _ _ _ _ hlen]
            exact (h3 i hi hi0 hpar).2 hpos0
          · rw [getD_set_ne _ _ _ _ _ (fun h => hpar h.symm)]
            exact h2 i hi hi0 hipos hpar
        · intro i hi hi0 hipp
          rw [List.length_set] at hi
          have hppne : ((pos - 1) / 2 - 1) / 2 ≠ pos := by omega
          have hparpar : 0 < (pos - 1) / 2 →
              l.getD (((pos - 1) / 2 - 1) / 2) d ≤ l.getD ((pos - 1) / 2) d := by
            intro hpp0
            exact h2 ((pos - 1) / 2) (by omega) hpp0 (by omega) hppne
          by_cases hipos : i = pos
          · subst hipos
            rw [getD_set_eq _ _ _ _ hlen]
            constructor
            · exact le_of_lt hlt
            · intro hpp0
              rw [getD_set_ne _ _ _ _ _ (by omega)]
              exact hparpar hpp0
          · rw [getD_set_ne _ _ _ _ _ (fun h => hipos h.symm)]
            have hple : l.getD ((pos - 1) / 2) d ≤ l.getD i d := by
              have hh := h2 i hi hi0 hipos (by omega)
              rwa [hipp] at hh
            constructor
            · exact le_of_lt (lt_of_lt_of_le hlt hple)
            · intro hpp0
              rw [getD_set_ne _ _ _ _ _ (by omega)]
              exact le_trans (hparpar hpp0) hple
      · simp only [if_neg hlt]
        exact isHeap_set_of_inv ⟨hlen, h2, h3⟩ (fun _ => le_of_not_lt hlt)

theorem siftUpAux_perm (d x : α) :
    ∀ (fuel : Nat) (l : List α) (pos : Nat), pos ≤ fuel → pos < l.length →
      (siftUpAux d x fuel l pos).Perm (l.set pos x)
  | 0, l, pos, hf, _ => by
    have hp0 : pos = 0 := Nat.le_zero.mp hf
    subst hp0
    exact List.Perm.refl _
  | fuel + 1, l, pos, hf, hlen => by
    rw [siftUpAux]
    by_cases hp0 : pos = 0
    · subst hp0; simp only [if_pos rfl]; exact List.Perm.refl _
    · simp only [if_neg hp0]
      have hpos0 : 0 < pos := Nat.pos_of_ne_zero hp0
      by_cases hlt : x < l.getD ((pos - 1) / 2) d
      · simp only [if_pos hlt]
        have ih := siftUpAux_perm d x fuel (l.set pos (l.getD ((pos - 1) / 2) d))
          ((pos - 1) / 2) (by omega) (by rw [List.length_set]; omega)
        exact ih.trans (set_set_perm d l pos ((pos - 1) / 2) x hlen (by omega) (by omega))
      · simp only [if_neg hlt]
        exact List.Perm.refl _

theorem heappush_perm (d : α) (l : List α) (x : α) : (heappush d l x).Perm (x :: l) := by
  have h := siftUpAux_perm d x l.length (l ++ [x]) l.length (le_refl _)
    (by simp)
  rw [set_append_len] at h
  exact h.trans (List.perm_append_comm)

theorem heappush_isHeap {d : α} {l : List α} (h : IsHeap d l) (x : α) :
    IsHeap d (heappush d l x) := by
  apply siftUpAux_isHeap d x l.length (l ++ [x]) l.length (le_refl _)
  refine ⟨by simp, ?_, ?_⟩
  · intro i hi hi0 hip _
    simp only [List.length_append, List.length_cons, List.length_nil] at hi
    have hilt : i < l.length := by omega
    rw [getD_append_lt _ _ _ _ hilt, getD_append_lt _ _ _ _ (by omega)]
    exact h i hilt hi0
  · intro i hi hi0 hipp
    simp only [List.length_append, List.length_cons, List.length_nil] at hi
    omega

/-- A sorted list is a valid binary min-heap. -/
theorem sorted_isHeap {l : List α} (h : List.Sorted (· ≤ ·) l) (d : α) : IsHeap d l := by
  intro i hi hi0
  have hp : (i - 1) / 2 < i := by omega
  rw [getD_eq_get l _ d (by omega), getD_eq_get l i d hi]
  exact List.Sorted.rel_get_of_lt h hp

end HeapqLemmas

namespace Stm

/-- **C4.** In the two-rule cycle (`t1` reads `a`/writes `b`, `t2` reads
`b`/writes `a`), an external write to `a` makes the atomic block raise
`CircularityError` carrying the non-empty routes map
`{t2 ↦ {t1}, t1 ↦ {t2}}`; and in the acyclic scenario where a completed
rule is merely re-scheduled by a later writer, the pulse converges with no
error — no false positive. -/
theorem claim_C4 :
    ((atomicallyE cycleWorld 40 (changed cycleWorld 0) cycleStart).2
        = some (.circularity [(some 11, [10]), (some 10, [11])])
      ∧ [(some 11, [10]), (some 10, [11])] ≠ ([] : List (Option LID × List LID)))
    ∧ (atomicallyE retriggerWorld 40 (changed retriggerWorld 1) retriggerStart).2
        = none := by
  refine ⟨⟨by decide, by decide⟩, by decide⟩

/-- **C7 (counterexample).** During `cleanup` the controller still has
`active = True`, so `atomically(f)` takes the re-entrant branch
(stm.py:423-424, 136-137) and simply runs `f`: here the call returns with no
error and `f`'s write is visible — contradicting the claim that it fails
with a `NoReentrantRun` error rather than running `f` (no such error exists
in the source). -/
theorem claim_C7_counterexample :
    (atomicallyE baseW 5 cleanupHookCall
        {baseSt with active := true, inCleanup := true}).2 = none
    ∧ (atomicallyE baseW 5 cleanupHookCall
        {baseSt with active := true, inCleanup := true}).1.store 0 = 5 := by
  exact ⟨rfl, rfl⟩

/-- **C7 (amended).** Calling `atomically(f)` while the controller is active —
which is the case during the whole of `cleanup` — is a re-entrant call: `f`
is run directly and its result returned, with no error.  What does fail by
assertion is invoking `cleanup` itself re-entrantly
(stm.py:176: `assert not self.in_cleanup`). -/
theorem claim_C7 (w : World) (fuel : Nat) (f : St → R) (s : St)
    (hact : s.active = true) :
    atomicallyE w fuel f s = f s
    ∧ (s.inCleanup = true → (cleanupBase w none s).2 = some .assertionError) := by
  constructor
  · simp [atomicallyE, hact]
  · intro hic
    simp [cleanupBase, hact, hic]

theorem claim_C7_witness :
    (atomicallyE baseW 5 cleanupHookCall {baseSt with active := true, inCleanup := true}
        = cleanupHookCall {baseSt with active := true, inCleanup := true})
    ∧ ((true : Bool) = true →
        (cleanupBase baseW none {baseSt with active := true, inCleanup := true}).2
          = some .assertionError) :=
  claim_C7 baseW 5 cleanupHookCall {baseSt with active := true, inCleanup := true} rfl

/-- **C5.** `used(subject)` inside an atomic block with a current listener
(which, the subject and listener id spaces being disjoint here, is never the
subject itself): the read is recorded, and whenever
`subject.layer >= current.layer` the current listener's layer is raised to
`subject.layer + 1` (stm.py:458-464); `used` outside an atomic block fails
(the `assert self.active` in `lock`, stm.py:453).  Subjects carry finite
(integer) layers in the source, whence `hfin`; the recorded-reads invariant
is itself preserved by the call. -/
theorem claim_C5 (w : World) (subject : SID) (s : St) (cl : LID)
    (hact : s.active = true) (hcl : s.current = some cl)
    (hfin : w.subjLayer subject ≠ ⊤) (hinv : ReadsInv w s) :
    ((usedF w subject s).2 = none
      ∧ subject ∈ (usedF w subject s).1.reads
      ∧ (w.subjLayer subject ≥ s.lisLayer cl →
          (usedF w subject s).1.lisLayer cl = layerSucc (w.subjLayer subject))
      ∧ ReadsInv w (usedF w subject s).1)
    ∧ (∀ t : St, t.active = false → (usedF w subject t).2 = some Err.assertionError) := by
  constructor
  · by_cases hmem : subject ∈ s.reads
    · have hres : usedF w subject s = (s, none) := by
        simp [usedF, hact, hcl, hmem]
      rw [hres]
      refine ⟨rfl, hmem, ?_, hinv⟩
      intro hge
      exact absurd (hinv cl hcl subject hmem) (not_lt.mpr hge)
    · by_cases hge : w.subjLayer subject ≥ s.lisLayer cl
      · have hres : usedF w subject s =
            ({s with reads := s.reads ++ [subject],
                     lisLayer := updF s.lisLayer cl (layerSucc (w.subjLayer subject))},
             none) := by
          simp [usedF, hact, hcl, hmem, hge]
        rw [hres]
        refine ⟨rfl, by simp, fun _ => by simp [updF], ?_⟩
        intro cl' hcl' x hx
        simp only at hcl'
        rw [hcl] at hcl'
        injection hcl' with hcl'
        subst hcl'
        simp only [updF, if_pos rfl]
        simp only [List.mem_append, List.mem_singleton] at hx
        rcases hx with hx | hx
        · exact lt_of_lt_of_le (lt_of_lt_of_le (hinv cl hcl x hx) hge)
            (le_layerSucc _)
        · subst hx
          exact lt_layerSucc hfin
      · have hres : usedF w subject s = ({s with reads := s.reads ++ [subject]}, none) := by
          simp [usedF, hact, hcl, hmem, hge]
        rw [hres]
        refine ⟨rfl, by simp, fun hge' => absurd hge' hge, ?_⟩
        intro cl' hcl' x hx
        simp only at hcl'
        rw [hcl] at hcl'
        injection hcl' with hcl'
        subst hcl'
        simp only [List.mem_append, List.mem_singleton] at hx
        rcases hx with hx | hx
        · exact hinv cl hcl x hx
        · subst hx
          exact lt_of_not_ge hge
  · intro t hin
    simp [usedF, hin]

theorem claim_C5_witness :
    (((usedF baseW 3 {baseSt with active := true, current := some 7}).2 = none
      ∧ 3 ∈ (usedF baseW 3 {baseSt with active := true, current := some 7}).1.reads
      ∧ (baseW.subjLayer 3 ≥ ({baseSt with active := true, current := some 7} : St).lisLayer 7 →
          (usedF baseW 3 {baseSt with active := true, current := some 7}).1.lisLayer 7
            = layerSucc (baseW.subjLayer 3))
      ∧ ReadsInv baseW (usedF baseW 3 {baseSt with active := true, current := some 7}).1)
    ∧ (∀ t : St, t.active = false →
        (usedF baseW 3 t).2 = some Err.assertionError)) :=
  claim_C5 baseW 3 {baseSt with active := true, current := some 7} 7 rfl rfl
    (by decide) (fun cl _ x hx => absurd hx (List.not_mem_nil x))

theorem quiet_refl (a : St) : quiet a a :=
  ⟨rfl, rfl, rfl, rfl, rfl, rfl, rfl, rfl, rfl, rfl, rfl, rfl, rfl⟩

theorem quiet_trans {a b c : St} (h1 : quiet a b) (h2 : quiet b c) : quiet a c := by
  obtain ⟨a1, a2, a3, a4, a5, a6, a7, a8, a9, a10, a11, a12, a13⟩ := h1
  obtain ⟨b1, b2, b3, b4, b5, b6, b7, b8, b9, b10, b11, b12, b13⟩ := h2
  exact ⟨a1.trans b1, a2.trans b2, a3.trans b3, a4.trans b4, a5.trans b5,
         a6.trans b6, a7.trans b7, a8.trans b8, a9.trans b9, a10.trans b10,
         a11.trans b11, a12.trans b12, a13.trans b13⟩

theorem cancel_quiet (s : St) (l : LID) : quiet (cancel s l) s := by
  unfold cancel
  repeat' first
    | exact ⟨rfl, rfl, rfl, rfl, rfl, rfl, rfl, rfl, rfl, rfl, rfl, rfl, rfl⟩
    | split
    | dsimp only

theorem schedRetry_quiet (s : St) (l : LID) : quiet (schedRetry s l) s := by
  unfold schedRetry
  repeat' split
  all_goals first
    | exact quiet_refl _
    | exact ⟨rfl, rfl, rfl, rfl, rfl, rfl, rfl, rfl, rfl, rfl, rfl, rfl, rfl⟩

theorem schedDequeue_quiet (s : St) (l : LID) (new old : Layer) (res : Bool) :
    quiet (schedDequeue s l new old res) s := by
  unfold schedDequeue
  repeat' split
  all_goals first
    | exact quiet_refl _
    | exact cancel_quiet s l
    | exact ⟨rfl, rfl, rfl, rfl, rfl, rfl, rfl, rfl, rfl, rfl, rfl, rfl, rfl⟩

theorem schedInsert_quiet (s : St) (l : LID) (new : Layer) :
    quiet (schedInsert s l new) s := by
  unfold schedInsert
  repeat' split
  all_goals exact ⟨rfl, rfl, rfl, rfl, rfl, rfl, rfl, rfl, rfl, rfl, rfl, rfl, rfl⟩

theorem schedule_quiet (s : St) (l : LID) (src : Option Layer) (res : Bool) :
    quiet (schedule s l src res).1 s := by
  simp only [schedule]
  split
  · exact quiet_refl _
  · refine quiet_trans (schedInsert_quiet _ _ _) ?_
    split
    · exact quiet_trans ⟨rfl, rfl, rfl, rfl, rfl, rfl, rfl, rfl, rfl, rfl, rfl, rfl, rfl⟩
        (quiet_trans (schedDequeue_quiet _ _ _ _ _) (schedRetry_quiet _ _))
    · exact quiet_trans (schedDequeue_quiet _ _ _ _ _) (schedRetry_quiet _ _)

theorem schedule_ok (s : St) (l : LID) (src : Option Layer) (res : Bool)
    (hro : s.readonly = false) :
    (schedule s l src res).2 = none := by
  simp only [schedule]
  split
  · rename_i h
    rw [hro] at h
    simp at h
  · rfl

/-- The immediate-scheduling fold in `Controller.changed`'s listenerless
branch (stm.py:471-473) succeeds and leaves the non-scheduler state alone. -/
theorem foldSched_quiet (w : World) (ls : List LID) (s : St)
    (hro : s.readonly = false) :
    ((ls.foldl (fun r l => bindR r (fun s =>
        if w.dirtyOf l then schedule s l none false else (s, none))) (s, none)).2 = none)
    ∧ quiet ((ls.foldl (fun r l => bindR r (fun s =>
        if w.dirtyOf l then schedule s l none false else (s, none))) (s, none)).1) s := by
  induction ls generalizing s with
  | nil => exact ⟨rfl, quiet_refl s⟩
  | cons a ls ih =>
    simp only [List.foldl_cons, bindR]
    by_cases hd : w.dirtyOf a
    · rw [if_pos hd]
      rcases hsch : schedule s a none false with ⟨s', e⟩
      have he : e = none := by
        have h := schedule_ok s a none false hro
        rw [hsch] at h; exact h
      have hq : quiet s' s := by
        have h := schedule_quiet s a none false
        rw [hsch] at h; exact h
      subst he
      have ih' := ih s' (by rw [hq.2.2.2.2.1, hro])
      exact ⟨ih'.1, quiet_trans ih'.2 hq⟩
    · rw [if_neg hd]
      exact ih s hro

theorem cellsQuiet_of_quiet {a b : St} (h : quiet a b) : cellsQuiet a b :=
  ⟨h.1, h.2.1, h.2.2.1, h.2.2.2.1, h.2.2.2.2.1, h.2.2.2.2.2.1, h.2.2.2.2.2.2.1⟩

theorem cellsQuiet_trans {a b c : St} (h1 : cellsQuiet a b) (h2 : cellsQuiet b c) :
    cellsQuiet a c :=
  ⟨h1.1.trans h2.1, h1.2.1.trans h2.2.1, h1.2.2.1.trans h2.2.2.1,
   h1.2.2.2.1.trans h2.2.2.2.1, h1.2.2.2.2.1.trans h2.2.2.2.2.1,
   h1.2.2.2.2.2.1.trans h2.2.2.2.2.2.1, h1.2.2.2.2.2.2.trans h2.2.2.2.2.2.2⟩

/-- `Controller.changed` succeeds inside an active block outside the commit
phase, and touches neither the cells nor the commit hooks. -/
theorem changed_props (w : World) (c : SID) (s : St)
    (hact : s.active = true) (hro : s.readonly = false) :
    (changed w c s).2 = none ∧ cellsQuiet (changed w c s).1 s := by
  cases hcur : s.current with
  | some l =>
    constructor
    · simp [changed, hact, hcur, hro, bindR]
    · unfold cellsQuiet
      refine ⟨?_, ?_, ?_, ?_, ?_, ?_, ?_⟩ <;> simp [changed, hact, hcur, hro, bindR]
  | none =>
    have hred : changed w c s
        = bindR ((s.listenersOf c).foldl (fun r l => bindR r (fun s =>
            if w.dirtyOf l then schedule s l none false else (s, none))) (s, none))
          (fun s => if s.readonly then (s, some Err.runtimeError) else (s, none)) := by
      simp [changed, hact, hcur]
    rw [hred]
    have hf := foldSched_quiet w (s.listenersOf c) s hro
    rcases hfold : (s.listenersOf c).foldl (fun r l => bindR r (fun s =>
        if w.dirtyOf l then schedule s l none false else (s, none))) (s, none) with ⟨t, e⟩
    rw [hfold] at hf
    obtain ⟨he, hq⟩ := hf
    simp only at he
    subst he
    simp only [bindR]
    rw [show t.readonly = false from hq.2.2.2.2.1.trans hro]
    simp only [Bool.false_eq_true, if_false]
    exact ⟨by simp, cellsQuiet_of_quiet hq⟩

/-- `runHooks` distributes over list append. -/
theorem runHooks_append (w : World) (hs hs' : List CHook) (s : St) :
    runHooks w (hs ++ hs') s = bindR (runHooks w hs s) (runHooks w hs') := by
  induction hs generalizing s with
  | nil => rfl
  | cons h rest ih =>
    simp only [List.cons_append, runHooks]
    rcases runHook : (match h with
           | CHook.finish c => runFinish w c s
           | CHook.gen _ => (s, none) : R) with ⟨t, e⟩
    cases e with
    | none =>
      simp only [bindR]
      exact ih t
    | some err => simp only [bindR]

/-- A cell's `_finish` for a *different* cell succeeds and leaves this
cell's slots and the hook list alone. -/
theorem runFinish_other (w : World) (c' c : SID) (s : St)
    (hact : s.active = true) (hro : s.readonly = false) (hne : c' ≠ c) :
    (runFinish w c' s).2 = none
    ∧ (runFinish w c' s).1.cellVal c = s.cellVal c
    ∧ (runFinish w c' s).1.cellSetBy c = s.cellSetBy c
    ∧ (runFinish w c' s).1.atCommit = s.atCommit
    ∧ (runFinish w c' s).1.active = s.active
    ∧ (runFinish w c' s).1.readonly = s.readonly
    ∧ (runFinish w c' s).1.inCleanup = s.inCleanup
    ∧ (runFinish w c' s).1.current = s.current := by
  unfold runFinish
  rcases hstep : (if s.cellSetBy c' ≠ SetBy.sentinel then
      {s with undo := UndoE.restoreCellSetBy c' (s.cellSetBy c') :: s.undo,
              cellSetBy := updF s.cellSetBy c' SetBy.sentinel}
    else s : St) with t
  have ht : t.cellVal = s.cellVal ∧ t.cellSetBy c = s.cellSetBy c
      ∧ t.atCommit = s.atCommit ∧ t.active = s.active ∧ t.readonly = s.readonly
      ∧ t.inCleanup = s.inCleanup ∧ t.current = s.current := by
    rw [← hstep]
    split
    · exact ⟨rfl, by simp [updF, hne.symm], rfl, rfl, rfl, rfl, rfl⟩
    · exact ⟨rfl, rfl, rfl, rfl, rfl, rfl, rfl⟩
  cases hr : w.cellReset c' with
  | none =>
    simp only [hr]
    refine ⟨?_, ?_, ?_, ?_, ?_, ?_, ?_, ?_⟩ <;>
      simp [congrFun ht.1 c, ht.2.1, ht.2.2.1, ht.2.2.2.1, ht.2.2.2.2.1,
            ht.2.2.2.2.2.1, ht.2.2.2.2.2.2]
  | some rv =>
    simp only [hr]
    by_cases hne2 : pvEq w.val (t.cellVal c') rv = true
    · rw [if_neg (not_not_intro hne2)]
      refine ⟨?_, ?_, ?_, ?_, ?_, ?_, ?_, ?_⟩ <;>
        simp [congrFun ht.1 c, ht.2.1, ht.2.2.1, ht.2.2.2.1, ht.2.2.2.2.1,
              ht.2.2.2.2.2.1, ht.2.2.2.2.2.2]
    · rw [Bool.not_eq_true] at hne2
      rw [if_pos (by rw [hne2]; simp)]
      have hcp := changed_props w c'
        {t with undo := UndoE.restoreCellVal c' (t.cellVal c') :: t.undo,
                cellVal := updF t.cellVal c' rv}
        (by simp only []; rw [ht.2.2.2.1, hact]) (by simp only []; rw [ht.2.2.2.2.1, hro])
      refine ⟨hcp.1, ?_, ?_, ?_, ?_, ?_, ?_, ?_⟩
      · rw [hcp.2.1]
        simp only [updF, if_neg hne.symm]
        exact congrFun ht.1 c
      · rw [hcp.2.2.1]; exact ht.2.1
      · rw [hcp.2.2.2.1]; exact ht.2.2.1
      · rw [hcp.2.2.2.2.1]; exact ht.2.2.2.1
      · rw [hcp.2.2.2.2.2.1]; exact ht.2.2.2.2.1
      · rw [hcp.2.2.2.2.2.2.1]; exact ht.2.2.2.2.2.1
      · rw [hcp.2.2.2.2.2.2.2]; exact ht.2.2.2.2.2.2

/-- Commit hooks not containing this cell's `_finish` succeed and leave its
slots, the hook list, and the phase flags alone. -/
theorem runHooks_other (w : World) (c : SID) (hs : List CHook) (s : St)
    (hact : s.active = true) (hro : s.readonly = false)
    (hnf : CHook.finish c ∉ hs) :
    (runHooks w hs s).2 = none
    ∧ (runHooks w hs s).1.cellVal c = s.cellVal c
    ∧ (runHooks w hs s).1.cellSetBy c = s.cellSetBy c
    ∧ (runHooks w hs s).1.atCommit = s.atCommit
    ∧ (runHooks w hs s).1.active = s.active
    ∧ (runHooks w hs s).1.readonly = s.readonly
    ∧ (runHooks w hs s).1.inCleanup = s.inCleanup
    ∧ (runHooks w hs s).1.current = s.current := by
  induction hs generalizing s with
  | nil => exact ⟨rfl, rfl, rfl, rfl, rfl, rfl, rfl, rfl⟩
  | cons h rest ih =>
    cases h with
    | gen n =>
      simp only [runHooks, bindR]
      exact ih s hact hro (fun hmem => hnf (List.mem_cons_of_mem _ hmem))
    | finish c' =>
      have hne : c' ≠ c := fun hcc => hnf (hcc ▸ List.mem_cons_self _ _)
      have hstep := runFinish_other w c' c s hact hro hne
      simp only [runHooks]
      rcases hfin : runFinish w c' s with ⟨t, e⟩
      rw [hfin] at hstep
      obtain ⟨he, hcv, hsb, hac, hat, hrt, hit, hct⟩ := hstep
      simp only at he hcv hsb hac hat hrt hit hct
      subst he
      simp only [bindR]
      have ih' := ih t (hat.trans hact) (hrt.trans hro)
        (fun hmem => hnf (List.mem_cons_of_mem _ hmem))
      exact ⟨ih'.1, ih'.2.1.trans hcv, ih'.2.2.1.trans hsb, ih'.2.2.2.1.trans hac,
             ih'.2.2.2.2.1.trans hat, ih'.2.2.2.2.2.1.trans hrt,
             ih'.2.2.2.2.2.2.1.trans hit, ih'.2.2.2.2.2.2.2.trans hct⟩

/-! ### Facts about Python `==` on modeled values -/

theorem pvEq_of_eq (val : Nat → Int) {a b : PVal} (h : a = b) :
    pvEq val a b = true := by
  simp [pvEq, h]

theorem pvEq_refl (val : Nat → Int) (a : PVal) : pvEq val a a = true := by
  simp [pvEq]

theorem pvEq_congr (val : Nat → Int) {a b : PVal} (h : pvEq val a b = true)
    (c : PVal) : pvEq val a c = pvEq val b c := by
  simp only [pvEq, beq_iff_eq] at h ⊢
  rw [h]

/-! ### C1: conflicting writes in one pulse -/

/-- **C1.** If a listener `l1` has already set cell `c` during this pulse
(a successful `set_value x` from pulse-start state `s0`), then a
`set_value y` by a different listener `l2` with `y` not `==`-equal to the
cell's current value raises `InputConflict` (trellis.py:141-144) without
touching the state; and the ensuing error path of the enclosing atomic
block (`abortBlock`: run/process unwinding plus `cleanup` with the error,
which rolls back to savepoint 0) restores the value held before the pulse,
clears `_set_by` back to the sentinel, empties the undo log and the commit
hooks, and propagates the `InputConflict` out of the block. -/
theorem claim_C1 (w : World) (c : SID) (x y : PVal) (s0 : St) (l1 l2 : LID)
    (hact : s0.active = true) (hro : s0.readonly = false)
    (hic : s0.inCleanup = false) (hcur : s0.current = some l1)
    (hsb : s0.cellSetBy c = .sentinel)
    (hundo : s0.undo = []) (hcommit : s0.atCommit = [])
    (hll : l1 ≠ l2)
    (hy : pvEq w.val y ((setValueIn w c x s0).1.cellVal c) = false) :
    (setValueIn w c x s0).2 = none
    ∧ (setValueIn w c y {(setValueIn w c x s0).1 with current := some l2}
        = ({(setValueIn w c x s0).1 with current := some l2},
           some (.inputConflict ((setValueIn w c x s0).1.cellVal c) y)))
    ∧ ((abortBlock w (.inputConflict ((setValueIn w c x s0).1.cellVal c) y)
          {(setValueIn w c x s0).1 with current := some l2}).2
        = some (.inputConflict ((setValueIn w c x s0).1.cellVal c) y))
    ∧ (abortBlock w (.inputConflict ((setValueIn w c x s0).1.cellVal c) y)
        {(setValueIn w c x s0).1 with current := some l2}).1.cellVal c = s0.cellVal c
    ∧ (abortBlock w (.inputConflict ((setValueIn w c x s0).1.cellVal c) y)
        {(setValueIn w c x s0).1 with current := some l2}).1.cellSetBy c = .sentinel
    ∧ (abortBlock w (.inputConflict ((setValueIn w c x s0).1.cellVal c) y)
        {(setValueIn w c x s0).1 with current := some l2}).1.undo = []
    ∧ (abortBlock w (.inputConflict ((setValueIn w c x s0).1.cellVal c) y)
        {(setValueIn w c x s0).1 with current := some l2}).1.atCommit = []
    ∧ (abortBlock w (.inputConflict ((setValueIn w c x s0).1.cellVal c) y)
        {(setValueIn w c x s0).1 with current := some l2}).1.active = false := by
  -- characterize the state after l1's successful write
  have hfacts :
      (setValueIn w c x s0).2 = none
      ∧ (setValueIn w c x s0).1.cellSetBy = updF s0.cellSetBy c (.setter (some l1))
      ∧ (setValueIn w c x s0).1.atCommit = [.finish c]
      ∧ (setValueIn w c x s0).1.active = true
      ∧ (setValueIn w c x s0).1.inCleanup = false
      ∧ (setValueIn w c x s0).1.readonly = false
      ∧ ((setValueIn w c x s0).1.undo = [.popCommit, .restoreCellSetBy c .sentinel]
            ∧ (setValueIn w c x s0).1.cellVal = s0.cellVal
         ∨ (setValueIn w c x s0).1.undo =
            [.restoreCellVal c (s0.cellVal c), .popCommit, .restoreCellSetBy c .sentinel]) := by
    by_cases hxis : x = s0.cellVal c
    · refine ⟨?_, ?_, ?_, ?_, ?_, ?_, Or.inl ⟨?_, ?_⟩⟩ <;>
        simp [setValueIn, hact, hsb, hundo, hcommit, updF, hxis, hcur, hic, hro]
    · by_cases hxeq : pvEq w.val x (s0.cellVal c) = true
      · refine ⟨?_, ?_, ?_, ?_, ?_, ?_, Or.inr ?_⟩ <;>
          simp [setValueIn, hact, hsb, hundo, hcommit, updF, hxis, hxeq, hcur, hic, hro]
      · rw [Bool.not_eq_true] at hxeq
        refine ⟨?_, ?_, ?_, ?_, ?_, ?_, Or.inr ?_⟩ <;>
          simp [setValueIn, hact, hsb, hundo, hcommit, updF, hxis, hxeq,
                changed, bindR, hcur, hic, hro]
  obtain ⟨hok, hsb1, hcm1, hact1, hic1, hro1, hu1⟩ := hfacts
  set s1 := (setValueIn w c x s0).1 with hs1
  have hsbc : s1.cellSetBy c = .setter (some l1) := by
    rw [hsb1]; simp [updF]
  -- the conflicting write by l2
  have hyne : ¬ (y = s1.cellVal c) := fun h => by
    rw [pvEq_of_eq w.val h] at hy
    exact absurd hy (by simp)
  have hconf : setValueIn w c y {s1 with current := some l2}
      = ({s1 with current := some l2}, some (.inputConflict (s1.cellVal c) y)) := by
    simp [setValueIn, hact1, hsbc, hyne, hy, hll]
  refine ⟨hok, hconf, ?_⟩
  rcases hu1 with ⟨hA, hAv⟩ | hB
  · refine ⟨?_, ?_, ?_, ?_, ?_, ?_⟩ <;>
      simp [abortBlock, cleanupC, cleanupBase, rollbackTo, rollbackAux, runUndo,
            bindR, hA, hAv, hact1, hic1, hcm1, updF]
  · refine ⟨?_, ?_, ?_, ?_, ?_, ?_⟩ <;>
      simp [abortBlock, cleanupC, cleanupBase, rollbackTo, rollbackAux, runUndo,
            bindR, hB, hact1, hic1, hcm1, updF]

theorem claim_C1_witness :
    (abortBlock baseW
        (.inputConflict ((setValueIn baseW 0 (some 11) conflictStart).1.cellVal 0) (some 12))
        {(setValueIn baseW 0 (some 11) conflictStart).1 with current := some 2}).1.cellVal 0
      = conflictStart.cellVal 0
    ∧ (setValueIn baseW 0 (some 12)
        {(setValueIn baseW 0 (some 11) conflictStart).1 with current := some 2}).2
      = some (.inputConflict ((setValueIn baseW 0 (some 11) conflictStart).1.cellVal 0)
          (some 12)) := by
  have h := claim_C1 baseW 0 (some 11) (some 12) conflictStart 1 2
    rfl rfl rfl rfl rfl rfl rfl (by decide) (by decide)
  exact ⟨h.2.2.2.1, by rw [h.2.1]⟩

/-! ### C3: discrete cells revert at pulse end -/

theorem runHooks_single (w : World) (c : SID) (s : St) :
    runHooks w [CHook.finish c] s = runFinish w c s := by
  simp only [runHooks]
  rcases runFinish w c s with ⟨u, e⟩
  cases e <;> simp [bindR, runHooks]

/-- `usedF` never touches the cell slots. -/
theorem usedF_cellVal (w : World) (subj : SID) (s : St) :
    (usedF w subj s).1.cellVal = s.cellVal := by
  unfold usedF
  repeat' first
    | rfl
    | split
    | dsimp only

/-- Core of the pulse-end commit for a set discrete cell: running the commit
hooks (the cell's own `_finish` last, as `set_value` registered it) resets
the cell's value to its reset value, and the base cleanup then clears the
hook list and undo log. -/
theorem discreteCommit (w : World) (c : SID) (X r : PVal) (s1 : St)
    (pre : List CHook) (who : Option LID)
    (h_act : s1.active = true) (h_ic : s1.inCleanup = false)
    (h_ro : s1.readonly = false)
    (h_sb : s1.cellSetBy c = .setter who)
    (h_ac : s1.atCommit = pre ++ [.finish c]) (hnf : CHook.finish c ∉ pre)
    (h_cv : pvEq w.val (s1.cellVal c) X = true)
    (hreset : w.cellReset c = some r) (hXr : pvEq w.val X r = false) :
    (cleanupC w none {s1 with current := none}).2 = none
    ∧ (cleanupC w none {s1 with current := none}).1.cellVal c = r := by
  -- evaluate the hooks registered before this cell's _finish
  have hpre := runHooks_other w c pre
    {s1 with current := none, hasRun := [], inCleanup := true}
    (by simp only []; exact h_act) (by simp only []; exact h_ro) hnf
  rcases hhooks : runHooks w pre
      {s1 with current := none, hasRun := [], inCleanup := true} with ⟨t, e⟩
  rw [hhooks] at hpre
  obtain ⟨he, t_cv, t_sb, t_ac, t_act, t_ro, t_ic, t_cur⟩ := hpre
  simp only at he t_cv t_sb t_ac t_act t_ro t_ic t_cur
  subst he
  -- the cell's own _finish
  have h_sb_t : t.cellSetBy c = .setter who := t_sb.trans h_sb
  have h_cv_t : pvEq w.val (t.cellVal c) r = false := by
    rw [show t.cellVal c = s1.cellVal c from t_cv]
    rw [pvEq_congr w.val h_cv r]
    exact hXr
  have hcond1 : t.cellSetBy c ≠ SetBy.sentinel := by
    rw [h_sb_t]; simp
  have hcp := changed_props w c
    {t with undo := UndoE.restoreCellVal c (t.cellVal c) ::
                UndoE.restoreCellSetBy c (t.cellSetBy c) :: t.undo,
            cellSetBy := updF t.cellSetBy c SetBy.sentinel,
            cellVal := updF t.cellVal c r}
    (by simp only []; exact t_act.trans h_act)
    (by simp only []; exact t_ro.trans h_ro)
  have hcpv : (changed w c
      {t with undo := UndoE.restoreCellVal c (t.cellVal c) ::
                  UndoE.restoreCellSetBy c (t.cellSetBy c) :: t.undo,
              cellSetBy := updF t.cellSetBy c SetBy.sentinel,
              cellVal := updF t.cellVal c r}).1.cellVal c = r := by
    rw [hcp.2.1]
    simp [updF]
  have hfin : (runFinish w c t).2 = none
      ∧ (runFinish w c t).1.cellVal c = r := by
    have hred : runFinish w c t = changed w c
        {t with undo := UndoE.restoreCellVal c (t.cellVal c) ::
                    UndoE.restoreCellSetBy c (t.cellSetBy c) :: t.undo,
                cellSetBy := updF t.cellSetBy c SetBy.sentinel,
                cellVal := updF t.cellVal c r} := by
      simp [runFinish, hcond1, hreset, h_cv_t, updF]
    rw [hred]
    exact ⟨hcp.1, hcpv⟩
  -- assemble the cleanup
  rcases hfinres : runFinish w c t with ⟨u, e⟩
  rw [hfinres] at hfin
  obtain ⟨he2, hu_cv⟩ := hfin
  simp only at he2 hu_cv
  subst he2
  have hall : runHooks w (pre ++ [CHook.finish c])
      {s1 with current := none, hasRun := [], inCleanup := true} = (u, none) := by
    rw [runHooks_append, hhooks]
    simp only [bindR]
    rw [runHooks_single, hfinres]
  have hredC : cleanupC w none {s1 with current := none}
      = ({u with
            atCommit := [], undo := [], inCleanup := false, current := none,
            lastListener := none, lastNotified := none, lastSave := none}, none) := by
    have hall2 := hall
    simp only [h_act, h_ac] at hall2
    simp [cleanupC, cleanupBase, h_act, h_ic, h_ac, hall2, bindR]
  rw [hredC]
  exact ⟨rfl, hu_cv⟩

/-- **C3.** A discrete cell (reset value `r`) set to `X` (`X != r`) during a
pulse: the write succeeds, reads during the pulse observe `X` (`get_value`
returns the stored value, `==`-equal to `X`), the pulse-end cleanup runs the
registered `_finish` hook which reverts the value to `r`
(trellis.py:102-107), and a read in the next pulse observes `r`. -/
theorem claim_C3 (w : World) (c : SID) (X r : PVal) (s0 : St)
    (hact : s0.active = true) (hro : s0.readonly = false)
    (hic : s0.inCleanup = false)
    (hsb : s0.cellSetBy c = .sentinel)
    (hreset : w.cellReset c = some r)
    (hXr : pvEq w.val X r = false)
    (hnf : CHook.finish c ∉ s0.atCommit) :
    (setValueIn w c X s0).2 = none
    ∧ pvEq w.val (getValueF w c (setValueIn w c X s0).1).2 X = true
    ∧ (cleanupC w none {(setValueIn w c X s0).1 with current := none}).2 = none
    ∧ (cleanupC w none {(setValueIn w c X s0).1 with current := none}).1.cellVal c = r
    ∧ (getValueF w c {(cleanupC w none
          {(setValueIn w c X s0).1 with current := none}).1 with active := false}).2
        = r := by
  have hfacts :
      (setValueIn w c X s0).2 = none
      ∧ pvEq w.val ((setValueIn w c X s0).1.cellVal c) X = true
      ∧ (setValueIn w c X s0).1.cellSetBy c = .setter s0.current
      ∧ (setValueIn w c X s0).1.atCommit = s0.atCommit ++ [.finish c]
      ∧ (setValueIn w c X s0).1.active = true
      ∧ (setValueIn w c X s0).1.inCleanup = false
      ∧ (setValueIn w c X s0).1.readonly = false := by
    by_cases hxis : X = s0.cellVal c
    · refine ⟨?_, ?_, ?_, ?_, ?_, ?_, ?_⟩ <;>
        simp [setValueIn, hact, hsb, hxis, hic, hro, updF, pvEq_refl]
    · by_cases hxeq : pvEq w.val X (s0.cellVal c) = true
      · refine ⟨?_, ?_, ?_, ?_, ?_, ?_, ?_⟩ <;>
          simp [setValueIn, hact, hsb, hxis, hxeq, hic, hro, updF, pvEq_refl]
      · rw [Bool.not_eq_true] at hxeq
        have hblk : setValueIn w c X s0
            = bindR (changed w c
                {s0 with
                  undo := UndoE.popCommit ::
                    UndoE.restoreCellSetBy c (s0.cellSetBy c) :: s0.undo,
                  cellSetBy := updF s0.cellSetBy c (SetBy.setter s0.current),
                  atCommit := s0.atCommit ++ [CHook.finish c]})
              (fun s => ({s with
                  undo := UndoE.restoreCellVal c (s.cellVal c) :: s.undo,
                  cellVal := updF s.cellVal c X}, none)) := by
          simp [setValueIn, hact, hsb, hxis, hxeq, updF]
        have hcp := changed_props w c
          {s0 with
            undo := UndoE.popCommit ::
              UndoE.restoreCellSetBy c (s0.cellSetBy c) :: s0.undo,
            cellSetBy := updF s0.cellSetBy c (SetBy.setter s0.current),
            atCommit := s0.atCommit ++ [CHook.finish c]}
          (by simp only []; exact hact) (by simp only []; exact hro)
        rcases hch : changed w c
            {s0 with
              undo := UndoE.popCommit ::
                UndoE.restoreCellSetBy c (s0.cellSetBy c) :: s0.undo,
              cellSetBy := updF s0.cellSetBy c (SetBy.setter s0.current),
              atCommit := s0.atCommit ++ [CHook.finish c]} with ⟨t, e⟩
        rw [hch] at hcp
        obtain ⟨he, c_cv, c_sb, c_ac, c_act, c_ro, c_ic, c_cur⟩ := hcp
        simp only at he c_cv c_sb c_ac c_act c_ro c_ic c_cur
        subst he
        rw [hblk, hch]
        simp only [bindR]
        refine ⟨?_, ?_, ?_, ?_, ?_, ?_, ?_⟩
        · trivial
        · simp only [updF, if_pos rfl]
          simp [pvEq]
        · rw [show ({t with
              undo := UndoE.restoreCellVal c (t.cellVal c) :: t.undo,
              cellVal := updF t.cellVal c X} : St).cellSetBy = t.cellSetBy from rfl]
          rw [c_sb]
          simp [updF]
        · exact c_ac
        · exact c_act.trans hact
        · exact c_ic.trans hic
        · exact c_ro.trans hro
  obtain ⟨h_ok, h_cv, h_sb, h_ac, h_act, h_ic, h_ro⟩ := hfacts
  have hcommit := discreteCommit w c X r (setValueIn w c X s0).1 s0.atCommit
    s0.current h_act h_ic h_ro h_sb h_ac hnf h_cv hreset hXr
  refine ⟨h_ok, ?_, hcommit.1, hcommit.2, ?_⟩
  · unfold getValueF
    rw [if_pos (by rw [h_act])]
    simp only []
    rw [congrFun (usedF_cellVal w c (setValueIn w c X s0).1) c]
    exact h_cv
  · unfold getValueF
    rw [if_neg (by simp)]
    exact hcommit.2

theorem claim_C3_witness :
    (setValueIn discreteW 0 (some 5) {baseSt with active := true}).2 = none
    ∧ pvEq discreteW.val
        (getValueF discreteW 0 (setValueIn discreteW 0 (some 5)
          {baseSt with active := true}).1).2 (some 5) = true
    ∧ (cleanupC discreteW none {(setValueIn discreteW 0 (some 5)
        {baseSt with active := true}).1 with current := none}).2 = none
    ∧ (cleanupC discreteW none {(setValueIn discreteW 0 (some 5)
        {baseSt with active := true}).1 with current := none}).1.cellVal 0 = none
    ∧ (getValueF discreteW 0 {(cleanupC discreteW none
          {(setValueIn discreteW 0 (some 5) {baseSt with active := true}).1
            with current := none}).1 with active := false}).2
        = none :=
  claim_C3 discreteW 0 (some 5) none {baseSt with active := true}
    rfl rfl rfl rfl rfl (by decide) (List.not_mem_nil _)

/-! ### C8: writing a cell to an `==`-equal value -/

/-- **C8.** `set_value(x)` with `x == v` (trellis.py:129-149): the call never
raises `InputConflict` (even when another listener already set the cell this
pulse, since the conflict branch requires `value != self._value`), never
calls `changed`, and schedules nothing: the write set, the queues and the
layer heap are untouched, and the cell's value stays `==`-equal to what it
was.  (Only the `_set_by`/`_finish` bookkeeping and, when `x` is a distinct
but `==`-equal object, the identity of the stored object may change.) -/
theorem claim_C8 (w : World) (c : SID) (x : PVal) (s : St)
    (hact : s.active = true) (heq : pvEq w.val x (s.cellVal c) = true) :
    (setValueIn w c x s).2 = none
    ∧ (setValueIn w c x s).1.writes = s.writes
    ∧ (setValueIn w c x s).1.queues = s.queues
    ∧ (setValueIn w c x s).1.layers = s.layers
    ∧ pvEq w.val ((setValueIn w c x s).1.cellVal c) (s.cellVal c) = true := by
  have hrefl : pvEq w.val (s.cellVal c) (s.cellVal c) = true := by
    simp [pvEq]
  by_cases hsb : s.cellSetBy c = SetBy.sentinel
  · by_cases hx : x = s.cellVal c
    · simp [setValueIn, hact, hsb, hx, hrefl]
    · simp [setValueIn, hact, hsb, hx, heq, updF]
  · by_cases hx : x = s.cellVal c
    · simp [setValueIn, hact, hsb, hx, hrefl]
    · simp [setValueIn, hact, hsb, hx, heq, updF]

theorem claim_C8_witness :
    ((setValueIn baseW 0 (some 4)
        {baseSt with active := true, cellVal := fun _ => some 4}).2 = none
      ∧ (setValueIn baseW 0 (some 4)
          {baseSt with active := true, cellVal := fun _ => some 4}).1.writes
          = ({baseSt with active := true, cellVal := fun _ => some 4} : St).writes
      ∧ (setValueIn baseW 0 (some 4)
          {baseSt with active := true, cellVal := fun _ => some 4}).1.queues
          = ({baseSt with active := true, cellVal := fun _ => some 4} : St).queues
      ∧ (setValueIn baseW 0 (some 4)
          {baseSt with active := true, cellVal := fun _ => some 4}).1.layers
          = ({baseSt with active := true, cellVal := fun _ => some 4} : St).layers
      ∧ pvEq baseW.val
          ((setValueIn baseW 0 (some 4)
            {baseSt with active := true, cellVal := fun _ => some 4}).1.cellVal 0)
          (({baseSt with active := true, cellVal := fun _ => some 4} : St).cellVal 0)
          = true) :=
  claim_C8 baseW 0 (some 4) {baseSt with active := true, cellVal := fun _ => some 4}
    rfl (by decide)

/-! ### C6: the scheduler invariant -/

theorem aGet_eq_none {κ ν : Type} [DecidableEq κ] (l : List (κ × ν)) (k : κ) :
    aGet l k = none ↔ k ∉ l.map Prod.fst := by
  induction l with
  | nil => simp [aGet]
  | cons p rest ih =>
    rcases p with ⟨a, b⟩
    by_cases h : a = k
    · subst h
      simp [aGet]
    · simp [aGet, h, Ne.symm h, ih]

theorem aGet_mem {κ ν : Type} [DecidableEq κ] {l : List (κ × ν)} {k : κ} {v : ν}
    (h : aGet l k = some v) : (k, v) ∈ l := by
  induction l with
  | nil => simp [aGet] at h
  | cons p rest ih =>
    rcases p with ⟨a, b⟩
    by_cases hk : a = k
    · subst hk
      rw [aGet, if_pos rfl] at h
      cases h
      exact List.mem_cons_self _ _
    · rw [aGet, if_neg hk] at h
      exact List.mem_cons_of_mem _ (ih h)

theorem keys_aPut_of_none {κ ν : Type} [DecidableEq κ] {l : List (κ × ν)} {k : κ}
    (v : ν) (h : aGet l k = none) :
    (aPut l k v).map Prod.fst = l.map Prod.fst ++ [k] := by
  induction l with
  | nil => simp [aPut]
  | cons p rest ih =>
    rcases p with ⟨a, b⟩
    rw [aGet] at h
    by_cases hk : a = k
    · rw [if_pos hk] at h
      cases h
    · rw [if_neg hk] at h
      simp [aPut, hk, ih h]

theorem keys_aPut_of_mem {κ ν : Type} [DecidableEq κ] {l : List (κ × ν)} {k : κ}
    (v : ν) (h : k ∈ l.map Prod.fst) :
    (aPut l k v).map Prod.fst = l.map Prod.fst := by
  induction l with
  | nil => simp at h
  | cons p rest ih =>
    rcases p with ⟨a, b⟩
    by_cases hk : a = k
    · subst hk
      simp [aPut]
    · have hmem : k ∈ rest.map Prod.fst := by
        rw [List.map_cons] at h
        rcases List.mem_cons.mp h with h1 | h1
        · exact absurd h1.symm hk
        · exact h1
      simp [aPut, hk, ih hmem]

theorem mem_aPut {κ ν : Type} [DecidableEq κ] {l : List (κ × ν)} {k : κ} {v : ν}
    {p : κ × ν} (hnd : (l.map Prod.fst).Nodup) (h : p ∈ aPut l k v) :
    p = (k, v) ∨ (p ∈ l ∧ p.1 ≠ k) := by
  induction l with
  | nil =>
    simp only [aPut, List.mem_singleton] at h
    exact Or.inl h
  | cons q rest ih =>
    rcases q with ⟨a, b⟩
    simp only [List.map_cons, List.nodup_cons] at hnd
    by_cases hk : a = k
    · subst hk
      simp only [aPut, if_pos rfl] at h
      rcases List.mem_cons.mp h with h1 | h1
      · exact Or.inl h1
      · right
        refine ⟨List.mem_cons_of_mem _ h1, ?_⟩
        intro hpk
        apply hnd.1
        have hx := List.mem_map_of_mem Prod.fst h1
        rwa [hpk] at hx
    · simp only [aPut, if_neg hk] at h
      rcases List.mem_cons.mp h with h1 | h1
      · right
        constructor
        · rw [h1]
          exact List.mem_cons_self _ _
        · rw [h1]
          exact hk
      · rcases ih hnd.2 h1 with h2 | h2
        · exact Or.inl h2
        · exact Or.inr ⟨List.mem_cons_of_mem _ h2.1, h2.2⟩

theorem keys_aDel {κ ν : Type} [DecidableEq κ] (l : List (κ × ν)) (k : κ) :
    (aDel l k).map Prod.fst = (l.map Prod.fst).erase k := by
  induction l with
  | nil => simp [aDel]
  | cons q rest ih =>
    rcases q with ⟨a, b⟩
    by_cases hk : a = k
    · subst hk
      simp [aDel, List.erase_cons_head]
    · simp [aDel, hk, ih, List.erase_cons]

theorem mem_aDel {κ ν : Type} [DecidableEq κ] {l : List (κ × ν)} {k : κ}
    {p : κ × ν} (h : p ∈ aDel l k) : p ∈ l := by
  induction l with
  | nil => simpa [aDel] using h
  | cons q rest ih =>
    rcases q with ⟨a, b⟩
    by_cases hk : a = k
    · subst hk
      simp only [aDel, if_pos rfl] at h
      exact List.mem_cons_of_mem _ h
    · simp only [aDel, if_neg hk] at h
      rcases List.mem_cons.mp h with h1 | h1
      · cases h1
        exact List.mem_cons_self _ _
      · exact List.mem_cons_of_mem _ (ih h1)

theorem aGet_of_mem_nodup {κ ν : Type} [DecidableEq κ] {l : List (κ × ν)}
    {p : κ × ν} (hnd : (l.map Prod.fst).Nodup) (h : p ∈ l) :
    aGet l p.1 = some p.2 := by
  induction l with
  | nil => simp at h
  | cons q rest ih =>
    rcases q with ⟨a, b⟩
    simp only [List.map_cons, List.nodup_cons] at hnd
    rcases List.mem_cons.mp h with h1 | h1
    · cases h1
      simp [aGet]
    · have hne : a ≠ p.1 := by
        intro he
        apply hnd.1
        rw [he]
        exact List.mem_map_of_mem Prod.fst h1
      rw [aGet, if_neg hne]
      exact ih hnd.2 h1

theorem cancel_inv {s : St} (hinv : SchedInv s) (listener : LID) :
    SchedInv (cancel s listener) := by
  obtain ⟨hlab, hqnd, hknd, hperm, hheap⟩ := hinv
  rcases hget : aGet s.queues (s.lisLayer listener) with _ | q
  · simp only [cancel, hget]
    exact ⟨hlab, hqnd, hknd, hperm, hheap⟩
  · have hqmem : (s.lisLayer listener, q) ∈ s.queues := aGet_mem hget
    by_cases hmem : listener ∈ q
    · simp only [cancel, hget, if_pos hmem]
      by_cases hq1 : q.erase listener = []
      · rw [if_pos hq1]
        refine ⟨?_, ?_, ?_, ?_, ?_⟩
        · intro p hp l hl
          exact hlab p (mem_aDel hp) l hl
        · intro p hp
          exact hqnd p (mem_aDel hp)
        · show ((aDel s.queues (s.lisLayer listener)).map Prod.fst).Nodup
          rw [keys_aDel]
          exact hknd.erase _
        · show (List.insertionSort (· ≤ ·)
              (s.layers.erase (s.lisLayer listener))).Perm
              ((aDel s.queues (s.lisLayer listener)).map Prod.fst)
          rw [keys_aDel]
          exact (List.perm_insertionSort _ _).trans (hperm.erase _)
        · exact sorted_isHeap (List.sorted_insertionSort _ _) 0
      · rw [if_neg hq1]
        have hkey : s.lisLayer listener ∈ s.queues.map Prod.fst :=
          List.mem_map_of_mem Prod.fst hqmem
        refine ⟨?_, ?_, ?_, ?_, hheap⟩
        · intro p hp l hl
          rcases mem_aPut hknd hp with h1 | h1
          · cases h1
            exact hlab _ hqmem l (List.mem_of_mem_erase hl)
          · exact hlab p h1.1 l hl
        · intro p hp
          rcases mem_aPut hknd hp with h1 | h1
          · cases h1
            exact List.Nodup.erase listener (hqnd _ hqmem)
          · exact hqnd p h1.1
        · show ((aPut s.queues (s.lisLayer listener) (q.erase listener)).map
              Prod.fst).Nodup
          rw [keys_aPut_of_mem _ hkey]
          exact hknd
        · show s.layers.Perm ((aPut s.queues (s.lisLayer listener)
              (q.erase listener)).map Prod.fst)
          rw [keys_aPut_of_mem _ hkey]
          exact hperm
    · simp only [cancel, hget, if_neg hmem]
      exact ⟨hlab, hqnd, hknd, hperm, hheap⟩

theorem cancel_notQueued {s : St} (hinv : SchedInv s) (listener : LID) :
    ∀ p ∈ (cancel s listener).queues, listener ∉ p.2 := by
  obtain ⟨hlab, hqnd, hknd, hperm, hheap⟩ := hinv
  intro p hp hl
  rcases hget : aGet s.queues (s.lisLayer listener) with _ | q
  · simp only [cancel, hget] at hp
    have hkey : p.1 = s.lisLayer listener := (hlab p hp listener hl).symm
    have h2 := aGet_of_mem_nodup hknd hp
    rw [hkey, hget] at h2
    simp at h2
  · have hqmem : (s.lisLayer listener, q) ∈ s.queues := aGet_mem hget
    by_cases hmem : listener ∈ q
    · simp only [cancel, hget] at hp
      rw [if_pos hmem] at hp
      by_cases hq1 : q.erase listener = []
      · rw [if_pos hq1] at hp
        have hkey : p.1 = s.lisLayer listener := by
          have := hlab p (mem_aDel hp) listener hl
          exact this.symm
        have hx := List.mem_map_of_mem Prod.fst hp
        rw [keys_aDel, hkey] at hx
        exact hknd.not_mem_erase hx
      · rw [if_neg hq1] at hp
        rcases mem_aPut hknd hp with h1 | h1
        · cases h1
          exact ((hqnd _ hqmem).mem_erase_iff.mp hl).1 rfl
        · have hkey : p.1 = s.lisLayer listener := (hlab p h1.1 listener hl).symm
          exact h1.2 hkey
    · simp only [cancel, hget] at hp
      rw [if_neg hmem] at hp
      have hkey : p.1 = s.lisLayer listener := (hlab p hp listener hl).symm
      have h2 := aGet_of_mem_nodup hknd hp
      rw [hkey, hget] at h2
      rw [Option.some_inj.mp h2] at hmem
      exact hmem hl

theorem schedRetry_fields (s : St) (listener : LID) :
    (schedRetry s listener).queues = s.queues
    ∧ (schedRetry s listener).layers = s.layers
    ∧ (schedRetry s listener).lisLayer = s.lisLayer := by
  unfold schedRetry
  repeat' first
    | exact ⟨rfl, rfl, rfl⟩
    | split
    | dsimp only

theorem schedRetry_inv {s : St} (hinv : SchedInv s) (listener : LID) :
    SchedInv (schedRetry s listener) := by
  obtain ⟨hf1, hf2, hf3⟩ := schedRetry_fields s listener
  obtain ⟨hlab, hqnd, hknd, hperm, hheap⟩ := hinv
  refine ⟨?_, ?_, ?_, ?_, ?_⟩ <;>
    simp only [SchedInv, hf1, hf2, hf3] <;>
    first
      | exact hlab
      | exact hqnd
      | exact hknd
      | exact hperm
      | exact hheap

theorem schedDequeue_inv {s : St} (hinv : SchedInv s) (listener : LID)
    (new old : Layer) (resched : Bool) :
    SchedInv (schedDequeue s listener new old resched) := by
  unfold schedDequeue
  split
  · split
    · exact cancel_inv hinv listener
    · exact hinv
  · split
    · exact hinv
    · exact hinv

theorem schedDequeue_notQueued {s : St} (hinv : SchedInv s) (listener : LID)
    (new old : Layer) (resched : Bool) (hold : old = s.lisLayer listener)
    (hne : new ≠ old) :
    ∀ p ∈ (schedDequeue s listener new old resched).queues, listener ∉ p.2 := by
  obtain ⟨hlab, hqnd, hknd, hperm, hheap⟩ := hinv
  subst hold
  have hnone : aGet s.queues (s.lisLayer listener) = none →
      ∀ p ∈ s.queues, listener ∉ p.2 := by
    intro hget p hp hl
    have hkey : p.1 = s.lisLayer listener := (hlab p hp listener hl).symm
    have h2 := aGet_of_mem_nodup hknd hp
    rw [hkey, hget] at h2
    simp at h2
  have hnotin : ∀ q, aGet s.queues (s.lisLayer listener) = some q →
      listener ∉ q → ∀ p ∈ s.queues, listener ∉ p.2 := by
    intro q hget hnm p hp hl
    have hkey : p.1 = s.lisLayer listener := (hlab p hp listener hl).symm
    have h2 := aGet_of_mem_nodup hknd hp
    rw [hkey, hget] at h2
    rw [Option.some_inj.mp h2] at hnm
    exact hnm hl
  unfold schedDequeue
  rcases hget : aGet s.queues (s.lisLayer listener) with _ | q
  · simp only [Bool.false_eq_true, if_false]
    split
    · exact hnone hget
    · exact hnone hget
  · by_cases hmem : listener ∈ q
    · have hgd : decide (listener ∈ q) = true := by simpa using hmem
      rw [if_pos hgd, if_pos hne]
      exact cancel_notQueued ⟨hlab, hqnd, hknd, hperm, hheap⟩ listener
    · have hgd : ¬ (decide (listener ∈ q) = true) := by simpa using hmem
      rw [if_neg hgd]
      split
      · exact hnotin q hget hmem
      · exact hnotin q hget hmem

theorem schedInv_relabel {s : St} (hinv : SchedInv s) (listener : LID)
    (new : Layer) (hnq : ∀ p ∈ s.queues, listener ∉ p.2) :
    SchedInv {s with lisLayer := updF s.lisLayer listener new} := by
  obtain ⟨hlab, hqnd, hknd, hperm, hheap⟩ := hinv
  refine ⟨?_, hqnd, hknd, hperm, hheap⟩
  intro p hp l hl
  show updF s.lisLayer listener new l = p.1
  have hne : l ≠ listener := fun h => hnq p hp (h ▸ hl)
  rw [updF]
  simp only [if_neg hne]
  exact hlab p hp l hl

theorem schedInsert_inv {s : St} (hinv : SchedInv s) (listener : LID)
    (new : Layer) (hl : s.lisLayer listener = new) :
    SchedInv (schedInsert s listener new) := by
  obtain ⟨hlab, hqnd, hknd, hperm, hheap⟩ := hinv
  rcases hget : aGet s.queues new with _ | qq
  · have hfresh : new ∉ s.queues.map Prod.fst := (aGet_eq_none _ _).mp hget
    simp only [schedInsert, hget]
    refine ⟨?_, ?_, ?_, ?_, ?_⟩
    · intro p hp l hlm
      rcases mem_aPut hknd hp with h1 | h1
      · cases h1
        have : l = listener := by simpa using hlm
        subst this
        exact hl
      · exact hlab p h1.1 l hlm
    · intro p hp
      rcases mem_aPut hknd hp with h1 | h1
      · cases h1
        exact List.nodup_singleton _
      · exact hqnd p h1.1
    · show ((aPut s.queues new [listener]).map Prod.fst).Nodup
      rw [keys_aPut_of_none _ hget]
      simp [List.nodup_append, hknd, hfresh]
    · show (heappush 0 s.layers new).Perm
        ((aPut s.queues new [listener]).map Prod.fst)
      rw [keys_aPut_of_none _ hget]
      exact (heappush_perm 0 s.layers new).trans
        ((hperm.cons new).trans (List.perm_append_singleton new _).symm)
    · exact heappush_isHeap hheap new
  · have hqmem : (new, qq) ∈ s.queues := aGet_mem hget
    have hkey : new ∈ s.queues.map Prod.fst := List.mem_map_of_mem Prod.fst hqmem
    simp only [schedInsert, hget]
    refine ⟨?_, ?_, ?_, ?_, hheap⟩
    · intro p hp l hlm
      rcases mem_aPut hknd hp with h1 | h1
      · cases h1
        by_cases hm : listener ∈ qq
        · rw [if_pos hm] at hlm
          exact hlab _ hqmem l hlm
        · rw [if_neg hm] at hlm
          rcases List.mem_append.mp hlm with h2 | h2
          · exact hlab _ hqmem l h2
          · have : l = listener := by simpa using h2
            subst this
            exact hl
      · exact hlab p h1.1 l hlm
    · intro p hp
      rcases mem_aPut hknd hp with h1 | h1
      · cases h1
        by_cases hm : listener ∈ qq
        · rw [if_pos hm]
          exact hqnd _ hqmem
        · rw [if_neg hm]
          simp [List.nodup_append, hqnd _ hqmem, hm]
      · exact hqnd p h1.1
    · show ((aPut s.queues new _).map Prod.fst).Nodup
      rw [keys_aPut_of_mem _ hkey]
      exact hknd
    · show s.layers.Perm ((aPut s.queues new _).map Prod.fst)
      rw [keys_aPut_of_mem _ hkey]
      exact hperm

theorem cancel_lisLayer (s : St) (listener : LID) :
    (cancel s listener).lisLayer = s.lisLayer := by
  unfold cancel
  repeat' first
    | rfl
    | split
    | dsimp only

theorem schedDequeue_lisLayer (s : St) (listener : LID) (new old : Layer)
    (resched : Bool) :
    (schedDequeue s listener new old resched).lisLayer = s.lisLayer := by
  unfold schedDequeue
  split
  · split
    · exact cancel_lisLayer s listener
    · rfl
  · split
    · rfl
    · rfl

theorem schedSteps_inv (s : St) (listener : LID) (new : Layer) (resched : Bool)
    (hinv : SchedInv s) :
    SchedInv (schedInsert
      (if new ≠ s.lisLayer listener then
        {schedDequeue (schedRetry s listener) listener new
            (s.lisLayer listener) resched with
          lisLayer := updF (schedDequeue (schedRetry s listener) listener new
            (s.lisLayer listener) resched).lisLayer listener new}
       else schedDequeue (schedRetry s listener) listener new
            (s.lisLayer listener) resched)
      listener new) := by
  have hret : SchedInv (schedRetry s listener) := schedRetry_inv hinv listener
  have hdq : SchedInv (schedDequeue (schedRetry s listener) listener new
      (s.lisLayer listener) resched) :=
    schedDequeue_inv hret listener new (s.lisLayer listener) resched
  have hdql := schedDequeue_lisLayer (schedRetry s listener) listener new
      (s.lisLayer listener) resched
  by_cases hne : new ≠ s.lisLayer listener
  · rw [if_pos hne]
    apply schedInsert_inv
    · apply schedInv_relabel hdq listener new
      exact schedDequeue_notQueued hret listener new (s.lisLayer listener)
        resched (by rw [(schedRetry_fields s listener).2.2]) hne
    · show updF _ listener new listener = new
      rw [updF]
      simp
  · rw [if_neg hne]
    apply schedInsert_inv hdq listener new
    rw [hdql, (schedRetry_fields s listener).2.2]
    exact (not_not.mp hne).symm

theorem schedule_inv (s : St) (listener : LID) (sourceLayer : Option Layer)
    (resched : Bool) (hinv : SchedInv s) :
    SchedInv (schedule s listener sourceLayer resched).1 := by
  simp only [schedule]
  split
  · exact hinv
  · exact schedSteps_inv s listener _ resched hinv

/-- **C6.** `schedule(listener, source_layer)` and `cancel(listener)` preserve
the scheduler invariant: every listener stored in `queues[L]` has
`listener.layer == L`, and `layers` is a valid binary min-heap over exactly
the keys of `queues` (stm.py:370-408, 411-419). -/
theorem claim_C6 (s : St) (listener : LID) (sourceLayer : Option Layer)
    (resched : Bool) (hinv : SchedInv s) :
    SchedInv (cancel s listener)
    ∧ SchedInv (schedule s listener sourceLayer resched).1 :=
  ⟨cancel_inv hinv listener, schedule_inv s listener sourceLayer resched hinv⟩

theorem claim_C6_witness :
    SchedInv schedW6
    ∧ SchedInv (cancel schedW6 7)
    ∧ SchedInv (schedule schedW6 7 (some (2 : Layer)) false).1 := by
  have h := claim_C6 schedW6 7 (some (2 : Layer)) false (by decide)
  exact ⟨by decide, h.1, h.2⟩

theorem bindR_assoc (r : R) (f g : St → R) :
    bindR (bindR r f) g = bindR r (fun s => bindR (f s) g) := by
  rcases r with ⟨s, e⟩
  cases e
  · rfl
  · rfl

theorem bindR_congr {r : R} {f g : St → R} (h : ∀ s, f s = g s) :
    bindR r f = bindR r g := by
  rcases r with ⟨s, e⟩
  cases e
  · exact h s
  · rfl

theorem rollbackAux_undo_irrel (sp : Option Nat) :
    ∀ (u : List UndoE) (s : St) (v : List UndoE),
      rollbackAux sp u {s with undo := v} = rollbackAux sp u s
  | [], _, _ => rfl
  | _ :: _, _, _ => rfl

theorem rollbackAux_stop : ∀ (u : List UndoE) (s : St),
    rollbackAux (some u.length) u s = ({s with undo := u}, none)
  | [], s => rfl
  | e :: rest, s => by
    have hc : (decide (rest.length + 1 > (e :: rest).length)) = false := by simp
    simp only [rollbackAux, List.length_cons] at hc ⊢
    rw [hc]
    simp

theorem rollbackAux_trans (n m : Nat) (hnm : n ≤ m) :
    ∀ (u : List UndoE) (s : St),
      rollbackAux (some n) u s
        = bindR (rollbackAux (some m) u s)
            (fun t => rollbackAux (some n) t.undo t)
  | [], s => by
    simp only [rollbackAux, bindR]
  | e :: rest, s => by
    by_cases hm : rest.length + 1 > m
    · have hn : rest.length + 1 > n := lt_of_le_of_lt hnm hm
      have hcm : decide (rest.length + 1 > m) = true := decide_eq_true hm
      have hcn : decide (rest.length + 1 > n) = true := decide_eq_true hn
      simp only [rollbackAux, hcm, hcn, if_true]
      rw [bindR_assoc]
      apply bindR_congr
      intro t1
      exact rollbackAux_trans n m hnm rest t1
    · have hcm : decide (rest.length + 1 > m) = false := decide_eq_false hm
      simp only [rollbackAux, hcm, Bool.false_eq_true, if_false, bindR]

theorem updF_restore {β : Type} (f : Nat → β) (k : Nat) (v : β) :
    updF (updF f k v) k (f k) = f := by
  funext x
  rw [updF, updF]
  by_cases h : x = k
  · subst h
    simp
  · simp [h]

theorem applyAOps_rollback : ∀ (ops : List AOp) (s : St), s.active = true →
    (applyAOps ops s).2 = none
    ∧ (applyAOps ops s).1.active = true
    ∧ (rollbackTo (some (savepoint s)) (applyAOps ops s).1).2 = none
    ∧ (rollbackTo (some (savepoint s)) (applyAOps ops s).1).1.store = s.store
    ∧ (rollbackTo (some (savepoint s)) (applyAOps ops s).1).1.atCommit = s.atCommit
    ∧ (rollbackTo (some (savepoint s)) (applyAOps ops s).1).1.undo = s.undo
    ∧ (rollbackTo (some (savepoint s)) (applyAOps ops s).1).1.queues = s.queues
    ∧ (rollbackTo (some (savepoint s)) (applyAOps ops s).1).1.layers = s.layers
    ∧ (rollbackTo (some (savepoint s)) (applyAOps ops s).1).1.lisLayer = s.lisLayer
  | [], s, h => by
    have hstop := rollbackAux_stop s.undo s
    refine ⟨rfl, h, ?_, ?_, ?_, ?_, ?_, ?_, ?_⟩ <;>
      simp only [applyAOps, rollbackTo, savepoint, hstop]
  | .setA k v :: rest, s, h => by
    have happ : applyAOps (AOp.setA k v :: rest) s
        = applyAOps rest {s with
            undo := UndoE.restoreStore k (s.store k) :: s.undo,
            store := updF s.store k v} := by
      simp [applyAOps, applyAOp, setattrStore, h, bindR]
    rw [happ]
    set t : St := {s with
        undo := UndoE.restoreStore k (s.store k) :: s.undo,
        store := updF s.store k v} with ht
    obtain ⟨ih1, ih2, ih3, ih4, ih5, ih6, ih7, ih8, ih9⟩ :=
      applyAOps_rollback rest t h
    rcases hroll : rollbackTo (some (savepoint t)) (applyAOps rest t).1 with ⟨s2, e2⟩
    rw [hroll] at ih3 ih4 ih5 ih6 ih7 ih8 ih9
    have he2 : e2 = none := ih3
    subst he2
    have ih6w : s2.undo = UndoE.restoreStore k (s.store k) :: s.undo := by
      rw [ih6, ht]
    have hR : rollbackTo (some (savepoint s)) (applyAOps rest t).1
        = ({s2 with store := updF s2.store k (s.store k), undo := s.undo}, none) := by
      rw [rollbackTo]
      rw [rollbackAux_trans (savepoint s) (savepoint t)
        (by rw [ht]; simp only [savepoint, List.length_cons]; omega)]
      have hfirst : rollbackAux (some (savepoint t)) (applyAOps rest t).1.undo
          (applyAOps rest t).1 = (s2, none) := by
        rw [← rollbackTo]
        exact hroll
      rw [hfirst]
      show rollbackAux (some (savepoint s)) s2.undo s2 = _
      rw [ih6w]
      have hc : decide (s.undo.length + 1 > savepoint s) = true := by
        simp [savepoint]
      simp only [rollbackAux, List.length_cons, savepoint] at hc ⊢
      rw [hc]
      simp only [if_true, runUndo, bindR]
      rw [rollbackAux_stop]
    refine ⟨ih1, ih2, ?_, ?_, ?_, ?_, ?_, ?_, ?_⟩
    · rw [hR]
    · rw [hR]
      show updF s2.store k (s.store k) = s.store
      rw [show s2.store = updF s.store k v from by rw [ih4, ht]]
      exact updF_restore s.store k v
    · rw [hR]
      show s2.atCommit = s.atCommit
      rw [ih5, ht]
    · rw [hR]
    · rw [hR]
      show s2.queues = s.queues
      rw [ih7, ht]
    · rw [hR]
      show s2.layers = s.layers
      rw [ih8, ht]
    · rw [hR]
      show s2.lisLayer = s.lisLayer
      rw [ih9, ht]
  | .onC n :: rest, s, h => by
    have happ : applyAOps (AOp.onC n :: rest) s
        = applyAOps rest {s with
            atCommit := s.atCommit ++ [CHook.gen n],
            undo := UndoE.popCommit :: s.undo} := by
      simp [applyAOps, applyAOp, onCommitG, h, bindR]
    rw [happ]
    set t : St := {s with
        atCommit := s.atCommit ++ [CHook.gen n],
        undo := UndoE.popCommit :: s.undo} with ht
    obtain ⟨ih1, ih2, ih3, ih4, ih5, ih6, ih7, ih8, ih9⟩ :=
      applyAOps_rollback rest t h
    rcases hroll : rollbackTo (some (savepoint t)) (applyAOps rest t).1 with ⟨s2, e2⟩
    rw [hroll] at ih3 ih4 ih5 ih6 ih7 ih8 ih9
    have he2 : e2 = none := ih3
    subst he2
    have ih6w : s2.undo = UndoE.popCommit :: s.undo := by
      rw [ih6, ht]
    have hR : rollbackTo (some (savepoint s)) (applyAOps rest t).1
        = ({s2 with atCommit := s2.atCommit.dropLast, undo := s.undo}, none) := by
      rw [rollbackTo]
      rw [rollbackAux_trans (savepoint s) (savepoint t)
        (by rw [ht]; simp only [savepoint, List.length_cons]; omega)]
      have hfirst : rollbackAux (some (savepoint t)) (applyAOps rest t).1.undo
          (applyAOps rest t).1 = (s2, none) := by
        rw [← rollbackTo]
        exact hroll
      rw [hfirst]
      show rollbackAux (some (savepoint s)) s2.undo s2 = _
      rw [ih6w]
      have hc : decide (s.undo.length + 1 > savepoint s) = true := by
        simp [savepoint]
      simp only [rollbackAux, List.length_cons, savepoint] at hc ⊢
      rw [hc]
      simp only [if_true, runUndo, bindR]
      rw [rollbackAux_stop]
    refine ⟨ih1, ih2, ?_, ?_, ?_, ?_, ?_, ?_, ?_⟩
    · rw [hR]
    · rw [hR]
      show s2.store = s.store
      rw [ih4, ht]
    · rw [hR]
      show s2.atCommit.dropLast = s.atCommit
      rw [show s2.atCommit = s.atCommit ++ [CHook.gen n] from by rw [ih5, ht]]
      simp
    · rw [hR]
    · rw [hR]
      show s2.queues = s.queues
      rw [ih7, ht]
    · rw [hR]
      show s2.layers = s.layers
      rw [ih8, ht]
    · rw [hR]
      show s2.lisLayer = s.lisLayer
      rw [ih9, ht]

theorem schedRetry_undo (s : St) (listener : LID) :
    (schedRetry s listener).undo = s.undo := by
  unfold schedRetry
  repeat' first
    | rfl
    | split
    | dsimp only

theorem schedInsert_undo (s : St) (listener : LID) (new : Layer) :
    (schedInsert s listener new).undo = s.undo := by
  unfold schedInsert
  repeat' first
    | rfl
    | split
    | dsimp only

theorem schedDequeue_undo_log (s : St) (listener : LID) (new old : Layer)
    (hact : s.active = true)
    (hg : (match aGet s.queues old with
        | some q => decide (listener ∈ q)
        | none => false) = false) :
    (schedDequeue s listener new old false).undo
      = UndoE.cancelL listener :: s.undo := by
  unfold schedDequeue
  rw [if_neg (by rw [hg]; simp)]
  rw [if_pos (by rw [hact]; simp)]

theorem schedule_undo_log (s : St) (listener : LID) (src : Option Layer)
    (hact : s.active = true) (hro : s.readonly = false)
    (hg : (match aGet s.queues (s.lisLayer listener) with
        | some q => decide (listener ∈ q)
        | none => false) = false) :
    (schedule s listener src false).1.undo
      = UndoE.cancelL listener :: s.undo := by
  obtain ⟨hf1, hf2, hf3⟩ := schedRetry_fields s listener
  have hg2 : (match aGet (schedRetry s listener).queues (s.lisLayer listener) with
      | some q => decide (listener ∈ q)
      | none => false) = false := by
    rw [hf1]
    exact hg
  have hact2 : (schedRetry s listener).active = true :=
    ((schedRetry_quiet s listener).2.2.2.1).trans hact
  simp only [schedule]
  split
  · rename_i hcon
    rw [hro] at hcon
    simp at hcon
  · show (schedInsert _ listener _).undo = _
    rw [schedInsert_undo]
    split
    · show (schedDequeue (schedRetry s listener) listener _
          (s.lisLayer listener) false).undo = _
      rw [schedDequeue_undo_log _ _ _ _ hact2 hg2, schedRetry_undo]
    · rw [schedDequeue_undo_log _ _ _ _ hact2 hg2, schedRetry_undo]

theorem schedule_unqueued_rollback (s : St) (listener : LID) (src : Option Layer)
    (hinv : SchedInv s) (hact : s.active = true) (hro : s.readonly = false)
    (hg : (match aGet s.queues (s.lisLayer listener) with
        | some q => decide (listener ∈ q)
        | none => false) = false) :
    (rollbackTo (some (savepoint s)) (schedule s listener src false).1).2 = none
    ∧ (∀ p ∈ (rollbackTo (some (savepoint s))
          (schedule s listener src false).1).1.queues, listener ∉ p.2)
    ∧ (rollbackTo (some (savepoint s)) (schedule s listener src false).1).1.store
        = s.store
    ∧ (rollbackTo (some (savepoint s)) (schedule s listener src false).1).1.atCommit
        = s.atCommit
    ∧ (rollbackTo (some (savepoint s)) (schedule s listener src false).1).1.undo
        = s.undo := by
  have hq : quiet (schedule s listener src false).1 s := schedule_quiet s listener src false
  have hinv1 : SchedInv (schedule s listener src false).1 :=
    schedule_inv s listener src false hinv
  have hu1 := schedule_undo_log s listener src hact hro hg
  have hR : rollbackTo (some (savepoint s)) (schedule s listener src false).1
      = ({cancel {(schedule s listener src false).1 with undo := s.undo} listener with
          undo := s.undo}, none) := by
    rw [rollbackTo, hu1]
    have hc : decide (s.undo.length + 1 > savepoint s) = true := by
      simp [savepoint]
    simp only [rollbackAux, List.length_cons, savepoint] at hc ⊢
    rw [hc]
    simp only [if_true, runUndo, bindR]
    rw [rollbackAux_stop]
  have hcq := cancel_quiet {(schedule s listener src false).1 with undo := s.undo} listener
  refine ⟨by rw [hR], ?_, ?_, ?_, by rw [hR]⟩
  · rw [hR]
    intro p hp
    exact cancel_notQueued (s := {(schedule s listener src false).1 with undo := s.undo})
      hinv1 listener p hp
  · rw [hR]
    show (cancel {(schedule s listener src false).1 with undo := s.undo} listener).store
      = s.store
    rw [hcq.2.2.2.2.2.2.2.2.1]
    exact hq.2.2.2.2.2.2.2.2.1
  · rw [hR]
    show (cancel {(schedule s listener src false).1 with undo := s.undo}
        listener).atCommit = s.atCommit
    rw [hcq.2.2.1]
    exact hq.2.2.1

/-- Counterexample to **C2** as stated: listener `7` is queued at layer `2`
with an empty undo log (`sp = 0`); `schedule(7, source_layer=2)` elevates it
to layer `3` without logging any undo entry (stm.py:378-381, the elevation
path runs `cancel` directly), so `rollback_to(0)` leaves the listener queued
at layer `3` with `listener.layer == 3`: the scheduled queues are not
restored to their savepoint value. -/
theorem claim_C2_counterexample :
    savepoint schedW6 = 0
    ∧ (schedule schedW6 7 (some (2 : Layer)) false).2 = none
    ∧ (rollbackTo (some 0) (schedule schedW6 7 (some (2 : Layer)) false).1).2 = none
    ∧ (rollbackTo (some 0)
        (schedule schedW6 7 (some (2 : Layer)) false).1).1.undo.length = 0
    ∧ (rollbackTo (some 0) (schedule schedW6 7 (some (2 : Layer)) false).1).1.queues
        = [((3 : Layer), [7])]
    ∧ schedW6.queues = [((2 : Layer), [7])]
    ∧ (rollbackTo (some 0) (schedule schedW6 7 (some (2 : Layer)) false).1).1.queues
        ≠ schedW6.queues
    ∧ (rollbackTo (some 0) (schedule schedW6 7 (some (2 : Layer)) false).1).1.lisLayer 7
        ≠ schedW6.lisLayer 7 := by
  decide

/-- **C2** (amended).  `savepoint(); mutate; rollback_to(sp)`: (i) for any
sequence of the undo-logged attribute/hook mutations (`setattr`,
`on_commit`), rollback restores the attribute store, the pending commit
hooks, the scheduler state and the undo log exactly; (ii) `schedule` of a
listener that is not currently queued logs a cancel entry, and rollback
cancels the scheduling (the listener is queued nowhere afterwards) while
restoring store, hooks and undo log - but, per the counterexample, the layer
elevation `schedule` performs on an already-queued listener is intentionally
not undo-logged and is not reverted. -/
theorem claim_C2 (ops : List AOp) (s s9 : St) (listener : LID)
    (src : Option Layer) (hact : s.active = true)
    (hinv : SchedInv s9) (hact9 : s9.active = true) (hro9 : s9.readonly = false)
    (hg : (match aGet s9.queues (s9.lisLayer listener) with
        | some q => decide (listener ∈ q)
        | none => false) = false) :
    ((applyAOps ops s).2 = none
      ∧ (rollbackTo (some (savepoint s)) (applyAOps ops s).1).2 = none
      ∧ (rollbackTo (some (savepoint s)) (applyAOps ops s).1).1.store = s.store
      ∧ (rollbackTo (some (savepoint s)) (applyAOps ops s).1).1.atCommit = s.atCommit
      ∧ (rollbackTo (some (savepoint s)) (applyAOps ops s).1).1.undo = s.undo
      ∧ (rollbackTo (some (savepoint s)) (applyAOps ops s).1).1.queues = s.queues
      ∧ (rollbackTo (some (savepoint s)) (applyAOps ops s).1).1.layers = s.layers
      ∧ (rollbackTo (some (savepoint s)) (applyAOps ops s).1).1.lisLayer = s.lisLayer)
    ∧ ((rollbackTo (some (savepoint s9)) (schedule s9 listener src false).1).2 = none
      ∧ (∀ p ∈ (rollbackTo (some (savepoint s9))
            (schedule s9 listener src false).1).1.queues, listener ∉ p.2)
      ∧ (rollbackTo (some (savepoint s9)) (schedule s9 listener src false).1).1.store
          = s9.store
      ∧ (rollbackTo (some (savepoint s9))
            (schedule s9 listener src false).1).1.atCommit = s9.atCommit
      ∧ (rollbackTo (some (savepoint s9)) (schedule s9 listener src false).1).1.undo
          = s9.undo) := by
  obtain ⟨h1, _, h3, h4, h5, h6, h7, h8, h9⟩ := applyAOps_rollback ops s hact
  exact ⟨⟨h1, h3, h4, h5, h6, h7, h8, h9⟩,
    schedule_unqueued_rollback s9 listener src hinv hact9 hro9 hg⟩

theorem claim_C2_witness :
    (((applyAOps [AOp.setA 0 5, AOp.onC 1] c2St).2 = none)
      ∧ (rollbackTo (some (savepoint c2St))
          (applyAOps [AOp.setA 0 5, AOp.onC 1] c2St).1).2 = none
      ∧ (rollbackTo (some (savepoint c2St))
          (applyAOps [AOp.setA 0 5, AOp.onC 1] c2St).1).1.store = c2St.store
      ∧ (rollbackTo (some (savepoint c2St))
          (applyAOps [AOp.setA 0 5, AOp.onC 1] c2St).1).1.atCommit = c2St.atCommit
      ∧ (rollbackTo (some (savepoint c2St))
          (applyAOps [AOp.setA 0 5, AOp.onC 1] c2St).1).1.undo = c2St.undo
      ∧ (rollbackTo (some (savepoint c2St))
          (applyAOps [AOp.setA 0 5, AOp.onC 1] c2St).1).1.queues = c2St.queues
      ∧ (rollbackTo (some (savepoint c2St))
          (applyAOps [AOp.setA 0 5, AOp.onC 1] c2St).1).1.layers = c2St.layers
      ∧ (rollbackTo (some (savepoint c2St))
          (applyAOps [AOp.setA 0 5, AOp.onC 1] c2St).1).1.lisLayer = c2St.lisLayer)
    ∧ ((rollbackTo (some (savepoint schedW6))
          (schedule schedW6 8 (some (0 : Layer)) false).1).2 = none
      ∧ (∀ p ∈ (rollbackTo (some (savepoint schedW6))
            (schedule schedW6 8 (some (0 : Layer)) false).1).1.queues, 8 ∉ p.2)
      ∧ (rollbackTo (some (savepoint schedW6))
          (schedule schedW6 8 (some (0 : Layer)) false).1).1.store = schedW6.store
      ∧ (rollbackTo (some (savepoint schedW6))
          (schedule schedW6 8 (some (0 : Layer)) false).1).1.atCommit
            = schedW6.atCommit
      ∧ (rollbackTo (some (savepoint schedW6))
          (schedule schedW6 8 (some (0 : Layer)) false).1).1.undo
            = schedW6.undo) :=
  claim_C2 [AOp.setA 0 5, AOp.onC 1] c2St schedW6 8 (some (0 : Layer))
    rfl (by decide) rfl rfl (by decide)

end Stm

namespace Activity

open Stm (aGet aPut aDel)

theorem aGet_aPut_self {κ ν : Type} [DecidableEq κ] (l : List (κ × ν))
    (k : κ) (v : ν) : aGet (aPut l k v) k = some v := by
  induction l with
  | nil => simp [Stm.aPut, Stm.aGet]
  | cons p rest ih =>
    rcases p with ⟨a, b⟩
    by_cases h : a = k
    · subst h
      simp [Stm.aPut, Stm.aGet]
    · simp [Stm.aPut, Stm.aGet, h, ih]

theorem updatedLoop_acc (fuel : Nat) :
    ∀ (s : TimeSt) (acc : List (WithTop Nat)) (x : WithTop Nat),
      x ∈ acc → x ∈ (updatedLoop fuel s acc).2 := by
  induction fuel with
  | zero =>
    intro s acc x hx
    exact hx
  | succ n ih =>
    intro s acc x hx
    rw [updatedLoop]
    split
    · split
      · split
        · exact ih _ _ x (List.mem_append_left _ hx)
        · exact ih _ _ x hx
      · exact hx
    · exact hx

/-- Counterexample to **C9** as stated: with no current listener
(`reached` called outside a rule) and the instant not yet reached,
`reached` returns `False` without pushing the instant onto the schedule
heap and without creating an event cell (activity.py:356-361, the `else:
return False` branch). -/
theorem claim_C9_counterexample :
    (reached 5 c9NoL).1 = false
    ∧ (reached 5 c9NoL).2 = c9NoL
    ∧ (5 : WithTop Nat) ∉ (reached 5 c9NoL).2.sched
    ∧ aGet (reached 5 c9NoL).2.events 5 = none := by
  decide

/-- **C9** (amended).  `Time.reached(t)`: (1) with no event cell registered
for `t`'s instant and the current time already past it, returns `True`;
(2) called from inside a rule before the instant, it pushes the instant on
the schedule heap, registers a `False` event cell, and returns `False`;
(3) called outside any rule before the instant, it just returns `False` -
nothing is pushed or registered; (4) with an event cell already registered
it returns that cell's value; and (5) once `_tick` reaches the heap top,
the `_updated` loop pops the instant and sets its event cell to `True`
(the one-pulse behaviour is then the discrete-cell reset of trellis.py). -/
theorem claim_C9 (s : TimeSt) (when : WithTop Nat) (fuel : Nat) :
    (aGet s.events when = none → s.now ≥ when → reached when s = (true, s))
    ∧ (aGet s.events when = none → ¬ s.now ≥ when → s.curListener = true →
        (reached when s).1 = false
        ∧ when ∈ (reached when s).2.sched
        ∧ aGet (reached when s).2.events when = some false)
    ∧ (aGet s.events when = none → ¬ s.now ≥ when → s.curListener = false →
        reached when s = (false, s))
    ∧ (∀ v, aGet s.events when = some v → reached when s = (v, s))
    ∧ (s.tick ≥ s.sched.getD 0 ⊤ → (heappop 0 s.sched).1 = some when →
        (aGet s.events when).isSome = true →
        when ∈ (updatedLoop (fuel + 1) s []).2) := by
  refine ⟨?_, ?_, ?_, ?_, ?_⟩
  · intro h1 h2
    simp only [reached, h1]
    rw [if_pos h2]
  · intro h1 h2 hcur
    simp only [reached, h1]
    rw [if_neg h2, if_pos (by rw [hcur])]
    refine ⟨?_, ?_, ?_⟩
    · simp [aGet_aPut_self]
    · show when ∈ heappush 0 s.sched when
      exact (heappush_perm 0 s.sched when).mem_iff.mpr (List.mem_cons_self _ _)
    · show aGet (aPut s.events when false) when = some false
      exact aGet_aPut_self s.events when false
  · intro h1 h2 hcur
    simp only [reached, h1]
    rw [if_neg h2, if_neg (by rw [hcur]; simp)]
  · intro v hv
    simp only [reached, hv]
  · intro htick hpop hev
    rw [updatedLoop]
    rw [if_pos htick]
    rcases hp : heappop 0 s.sched with ⟨ko, sq⟩
    rw [hp] at hpop
    simp only at hpop
    subst hpop
    simp only [hev, if_true]
    exact updatedLoop_acc fuel _ _ when (List.mem_append_right _
      (List.mem_singleton_self _))

theorem claim_C9_witness :
    reached 5 c9Past = (true, c9Past)
    ∧ ((reached 5 c9Reg).1 = false
        ∧ (5 : WithTop Nat) ∈ (reached 5 c9Reg).2.sched
        ∧ aGet (reached 5 c9Reg).2.events 5 = some false)
    ∧ reached 5 c9NoL = (false, c9NoL)
    ∧ reached 5 c9Pre = (true, c9Pre)
    ∧ (5 : WithTop Nat) ∈ (updatedLoop 2 c9Fire []).2 :=
  ⟨(claim_C9 c9Past 5 0).1 rfl (by decide),
   (claim_C9 c9Reg 5 0).2.1 rfl (by decide) rfl,
   (claim_C9 c9NoL 5 0).2.2.1 rfl (by decide) rfl,
   (claim_C9 c9Pre 5 0).2.2.2.1 true rfl,
   (claim_C9 c9Fire 5 1).2.2.2.2 (by decide) (by decide) (by decide)⟩

end Activity

namespace TrellisCell

/-- **C10.** `Cell(rule=None, value=v, discrete=d)` returns a plain writable
`Value` cell; `Cell(rule=r)` with no value given returns a read-only rule
cell (`ReadOnlyCell`, which has no `set_value`); with both a rule and a
value given it returns a writable rule `Cell` (trellis.py:457-468). -/
theorem claim_C10 (valueGiven : Bool) :
    cellNew .none valueGiven false true = .value
    ∧ cellNew .plain false false true = .readOnlyCell
    ∧ cellNew .plain true false true = .cell
    ∧ hasSetValue (cellNew .none valueGiven false true) = true
    ∧ hasSetValue (cellNew .plain false false true) = false
    ∧ hasSetValue (cellNew .plain true false true) = true := by
  cases valueGiven <;> exact ⟨rfl, rfl, rfl, rfl, rfl, rfl⟩

end TrellisCell

end Trellis
